import Mathlib

/-!
# Verification of `pdf_converter.py`

A shallow embedding of `src/pdf_converter.py` together with the parts of the
Python standard library it relies on (`urllib.parse`, `re` on a single
character class, `os.path.join`, and the exception behaviour of `requests`
and `pdfkit` as environments).

Python `str` values are modeled as `List Char` (a Python string is a sequence
of Unicode code points; Lean's `Char` is a Unicode scalar value, which covers
every string the program can receive from a caller that does not manufacture
lone surrogates).  Fallible operations are modeled with `Except`/`Option`;
the network and the PDF renderer are oracles passed in as functions.
-/

namespace PdfConverter

/-- Python `str`, as a list of code points. -/
abbrev Str := List Char

/-! ## Generic splitting utilities (semantics of `str.find` / `str.split`) -/

/-- Split a list at the first occurrence of `c`: returns the part before and
the part after that occurrence (the occurrence itself removed), or `none`
when `c` does not occur.  This is the semantics of Python's
`s.find(c)` / `s.split(c, 1)` combination. -/
def splitOnFirst (c : Char) : Str → Option (Str × Str)
  | [] => none
  | x :: xs =>
    if x = c then some ([], xs)
    else
      match splitOnFirst c xs with
      | none => none
      | some (a, b) => some (x :: a, b)

theorem splitOnFirst_eq_none_iff (c : Char) (l : Str) :
    splitOnFirst c l = none ↔ c ∉ l := by
  induction l with
  | nil => simp [splitOnFirst]
  | cons x xs ih =>
    simp only [splitOnFirst]
    by_cases hx : x = c
    · subst hx; simp
    · simp only [if_neg hx]
      cases h : splitOnFirst c xs with
      | none =>
        have hxs : c ∉ xs := ih.mp h
        simp only [List.mem_cons, not_or]
        exact ⟨fun _ => ⟨fun h1 => hx h1.symm, hxs⟩, fun _ => trivial⟩
      | some p =>
        have hxs : c ∈ xs := by
          by_contra hmem
          rw [← ih] at hmem
          rw [hmem] at h
          cases h
        obtain ⟨a, b⟩ := p
        simp [List.mem_cons, hxs]

theorem splitOnFirst_append {c : Char} {l₁ : Str} (l₂ : Str) (h : c ∉ l₁) :
    splitOnFirst c (l₁ ++ c :: l₂) = some (l₁, l₂) := by
  induction l₁ with
  | nil => simp [splitOnFirst]
  | cons x xs ih =>
    have hx : x ≠ c := fun hx => h (hx ▸ List.mem_cons_self x xs)
    have hxs : c ∉ xs := fun hm => h (List.mem_cons_of_mem _ hm)
    rw [List.cons_append]
    simp only [splitOnFirst, if_neg hx]
    rw [ih hxs]

/-- Characterization of a successful `splitOnFirst`. -/
theorem splitOnFirst_eq_some {c : Char} {l a b : Str}
    (h : splitOnFirst c l = some (a, b)) : l = a ++ c :: b ∧ c ∉ a := by
  induction l generalizing a b with
  | nil => simp [splitOnFirst] at h
  | cons x xs ih =>
    by_cases hx : x = c
    · subst hx
      simp only [splitOnFirst, if_pos rfl, Option.some_inj] at h
      cases h
      simp
    · simp only [splitOnFirst, if_neg hx] at h
      cases h' : splitOnFirst c xs with
      | none => rw [h'] at h; cases h
      | some p =>
        rw [h'] at h
        cases p with
        | mk a' b' =>
          simp only [Option.some_inj, Prod.mk.injEq] at h
          obtain ⟨ha, hb⟩ := h
          obtain ⟨hxs, hna⟩ := ih h'
          subst ha hb
          constructor
          · simp [hxs]
          · intro hm
            rcases List.mem_cons.mp hm with h1 | h2
            · exact hx h1.symm
            · exact hna h2

/-- Python `s.split(sep)` (full split, `sep` a single character):
`"a&&b" → ["a","","b"]`, `"" → [""]`. -/
def splitOn (c : Char) : Str → List Str
  | [] => [[]]
  | x :: xs =>
    let r := splitOn c xs
    if x = c then [] :: r
    else
      match r with
      | h :: t => (x :: h) :: t
      | [] => [[x]]

theorem splitOn_ne_nil (c : Char) (l : Str) : splitOn c l ≠ [] := by
  induction l with
  | nil => simp [splitOn]
  | cons x xs ih =>
    simp only [splitOn]
    by_cases hx : x = c
    · simp [hx]
    · simp only [if_neg hx]
      cases h : splitOn c xs with
      | nil => exact absurd h ih
      | cons a t => simp

/-! ## Split on the last occurrence (semantics of `str.rfind`) -/

/-- Split at the last occurrence of `c`; the second component contains no `c`. -/
def splitOnLast (c : Char) (l : Str) : Option (Str × Str) :=
  match splitOnFirst c l.reverse with
  | none => none
  | some (a, b) => some (b.reverse, a.reverse)

theorem splitOnLast_eq_none_iff (c : Char) (l : Str) :
    splitOnLast c l = none ↔ c ∉ l := by
  unfold splitOnLast
  cases h : splitOnFirst c l.reverse with
  | none =>
    have := (splitOnFirst_eq_none_iff c l.reverse).mp h
    simp only [List.mem_reverse] at this
    simp [this]
  | some p =>
    cases p with
    | mk a b =>
      simp only
      constructor
      · intro h'; cases h'
      · intro hc
        exfalso
        have : c ∉ l.reverse := by simpa using hc
        rw [← splitOnFirst_eq_none_iff c l.reverse] at this
        rw [this] at h; cases h

theorem splitOnLast_eq_some {c : Char} {l a b : Str}
    (h : splitOnLast c l = some (a, b)) : l = a ++ c :: b ∧ c ∉ b := by
  unfold splitOnLast at h
  cases h' : splitOnFirst c l.reverse with
  | none => rw [h'] at h; cases h
  | some p =>
    cases p with
    | mk a' b' =>
      rw [h'] at h
      simp only [Option.some_inj, Prod.mk.injEq] at h
      obtain ⟨ha, hb⟩ := h
      obtain ⟨hrev, hna⟩ := splitOnFirst_eq_some h'
      subst ha hb
      constructor
      · have : l = (a' ++ c :: b').reverse := by rw [← hrev]; simp
        rw [this]
        simp
      · simpa using hna

theorem splitOnLast_append {c : Char} {l₂ : Str} (l₁ : Str) (h : c ∉ l₂) :
    splitOnLast c (l₁ ++ c :: l₂) = some (l₁, l₂) := by
  unfold splitOnLast
  have hrev : (l₁ ++ c :: l₂).reverse = l₂.reverse ++ c :: l₁.reverse := by
    simp
  rw [hrev, splitOnFirst_append _ (by simpa using h)]
  simp

/-! ## `urllib.parse.urlsplit` / `urlparse` and their inverses

Translated from CPython's `Lib/urllib/parse.py` (3.11-era).  `urlsplit`
has three validation paths that raise `ValueError` instead of returning:
the mismatched-bracket check (`raise ValueError("Invalid IPv6 URL")`),
`_check_bracketed_host` on a `[...]` netloc, and the NFKC check of
`_checknetloc` on a non-ASCII netloc.  The component computation below is
total and never alters components on inputs that pass those checks; the
mismatched-bracket check itself is modeled separately as
`invalidIpv6Netloc` (made explicit in `make_comprehensible_nameE`), and
theorems that need `urlparse` not to raise carry hypotheses — a
bracket-free, all-ASCII netloc — under which CPython reaches none of the
three raising paths. -/

/-- `_WHATWG_C0_CONTROL_OR_SPACE`: code points `\x00`–`\x20`. -/
def c0OrSpace (c : Char) : Bool := c.toNat ≤ 0x20

/-- A tab, carriage return or newline (`_UNSAFE_URL_BYTES_TO_REMOVE`). -/
def isTabNl (c : Char) : Bool := c = '\t' ∨ c = '\r' ∨ c = '\n'

/-- `url.lstrip(_WHATWG_C0_CONTROL_OR_SPACE)` — CPython deliberately strips
only the left side of the URL. -/
def lstripC0Space (s : Str) : Str := s.dropWhile c0OrSpace

/-- Removal of every tab/CR/LF, anywhere in the URL. -/
def removeTabNl (s : Str) : Str := s.filter (fun c => ¬ isTabNl c)

/-- `scheme_chars` from `urllib.parse`: letters, digits, `+`, `-`, `.`. -/
def isSchemeChar (c : Char) : Bool :=
  ('a' ≤ c ∧ c ≤ 'z') ∨ ('A' ≤ c ∧ c ≤ 'Z') ∨ ('0' ≤ c ∧ c ≤ '9') ∨
    c = '+' ∨ c = '-' ∨ c = '.'

/-- `c.isascii() and c.isalpha()`. -/
def asciiAlpha (c : Char) : Bool := ('a' ≤ c ∧ c ≤ 'z') ∨ ('A' ≤ c ∧ c ≤ 'Z')

/-- ASCII lowercasing, as `str.lower()` acts on the (all-ASCII) scheme. -/
def asciiLower (c : Char) : Char :=
  if 'A' ≤ c ∧ c ≤ 'Z' then Char.ofNat (c.toNat + 32) else c

/-- The acceptance test on the candidate scheme `url[:i]`:
`i > 0 and url[0].isascii() and url[0].isalpha()` plus the
`scheme_chars` membership loop. -/
def schemeOk (a : Str) : Bool :=
  match a with
  | [] => false
  | c :: _ => asciiAlpha c ∧ a.all isSchemeChar

/-- The scheme-splitting step of `urlsplit`; returns `(scheme, rest)`, with
`scheme = []` and the input unchanged when no scheme is recognized. -/
def splitScheme (url : Str) : Str × Str :=
  match splitOnFirst ':' url with
  | none => ([], url)
  | some (a, b) => if schemeOk a then (a.map asciiLower, b) else ([], url)

/-- A netloc delimiter: `/`, `?` or `#` (`_splitnetloc` stops at these). -/
def isNetlocDelim (c : Char) : Bool := c = '/' ∨ c = '?' ∨ c = '#'

/-- The netloc-splitting step: when the remainder starts with `//`, the
netloc extends to the next `/`, `?` or `#`. -/
def splitNetloc (u : Str) : Str × Str :=
  if u.take 2 = ['/', '/'] then
    ((u.drop 2).takeWhile (fun c => ¬ isNetlocDelim c),
     (u.drop 2).dropWhile (fun c => ¬ isNetlocDelim c))
  else ([], u)

/-- `if '#' in url: url, fragment = url.split('#', 1)`. -/
def splitFragment (u : Str) : Str × Str :=
  match splitOnFirst '#' u with
  | none => (u, [])
  | some (a, b) => (a, b)

/-- `if '?' in url: url, query = url.split('?', 1)`. -/
def splitQuery (u : Str) : Str × Str :=
  match splitOnFirst '?' u with
  | none => (u, [])
  | some (a, b) => (a, b)

structure SplitResult where
  scheme : Str
  netloc : Str
  path : Str
  query : Str
  fragment : Str
  deriving DecidableEq, Repr

/-- `urllib.parse.urlsplit` with `allow_fragments=True`. -/
def pyUrlsplit (url0 : Str) : SplitResult :=
  let u1 := removeTabNl (lstripC0Space url0)
  let s := splitScheme u1
  let n := splitNetloc s.2
  let f := splitFragment n.2
  let q := splitQuery f.1
  ⟨s.1, n.1, q.1, q.2, f.2⟩

/-- `_splitparams`: split `path;params`, looking for the `;` only in the
last path segment. -/
def pySplitparams (url : Str) : Str × Str :=
  match splitOnLast '/' url with
  | some (a, b) =>
    (match splitOnFirst ';' b with
     | some (b1, b2) => (a ++ '/' :: b1, b2)
     | none => (url, []))
  | none =>
    match splitOnFirst ';' url with
    | some (p1, p2) => (p1, p2)
    | none => (url, [])

structure ParseResult where
  scheme : Str
  netloc : Str
  path : Str
  params : Str
  query : Str
  fragment : Str
  deriving DecidableEq, Repr

/-- `urllib.parse.urlparse`. -/
def pyUrlparse (url : Str) : ParseResult :=
  let s := pyUrlsplit url
  let pp := if ';' ∈ s.path then pySplitparams s.path else (s.path, [])
  ⟨s.scheme, s.netloc, pp.1, pp.2, s.query, s.fragment⟩

/-- `urllib.parse.urlunsplit`. -/
def pyUrlunsplit (scheme netloc url query fragment : Str) : Str :=
  let url1 :=
    if netloc ≠ [] ∨ url.take 2 = ['/', '/'] then
      '/' :: '/' :: (netloc ++
        (if url ≠ [] ∧ url.take 1 ≠ ['/'] then '/' :: url else url))
    else url
  let url2 := if scheme ≠ [] then scheme ++ ':' :: url1 else url1
  let url3 := if query ≠ [] then url2 ++ '?' :: query else url2
  if fragment ≠ [] then url3 ++ '#' :: fragment else url3

/-- `urllib.parse.urlunparse`. -/
def pyUrlunparse (scheme netloc path params query fragment : Str) : Str :=
  pyUrlunsplit scheme netloc
    (if params ≠ [] then path ++ ';' :: params else path) query fragment

/-! ## UTF-8 and percent-encoding (`quote_plus`, `unquote`)

`quote`/`quote_plus` encode a `str` to UTF-8 bytes and percent-escape every
byte outside `_ALWAYS_SAFE` (letters, digits, `_.-~`) and the `safe` set;
`unquote` percent-decodes each maximal ASCII run and decodes the resulting
bytes as UTF-8 with `errors='replace'` (U+FFFD for each maximal invalid
subpart). -/

/-- `_ALWAYS_SAFE`: ASCII letters, digits, and `_`, `.`, `-`, `~`. -/
def alwaysSafe (c : Char) : Bool :=
  ('a' ≤ c ∧ c ≤ 'z') ∨ ('A' ≤ c ∧ c ≤ 'Z') ∨ ('0' ≤ c ∧ c ≤ '9') ∨
    c = '_' ∨ c = '.' ∨ c = '-' ∨ c = '~'

/-- UTF-8 encoding of one code point (as numbers 0–255). -/
def utf8EncodeChar (c : Char) : List Nat :=
  if c.toNat < 0x80 then [c.toNat]
  else if c.toNat < 0x800 then [0xC0 + c.toNat / 64, 0x80 + c.toNat % 64]
  else if c.toNat < 0x10000 then
    [0xE0 + c.toNat / 4096, 0x80 + c.toNat / 64 % 64, 0x80 + c.toNat % 64]
  else
    [0xF0 + c.toNat / 262144, 0x80 + c.toNat / 4096 % 64,
      0x80 + c.toNat / 64 % 64, 0x80 + c.toNat % 64]

def utf8Encode : Str → List Nat
  | [] => []
  | c :: cs => utf8EncodeChar c ++ utf8Encode cs

/-- Uppercase hex digit of `n < 16` (the `'%{:02X}'` format of `quote`). -/
def hexUpper (n : Nat) : Char :=
  if n < 10 then Char.ofNat (48 + n) else Char.ofNat (55 + n)

/-- Percent-escapes for a byte list. -/
def pctEncBytes : List Nat → Str
  | [] => []
  | b :: bs => '%' :: hexUpper (b / 16) :: hexUpper (b % 16) :: pctEncBytes bs

/-- `urllib.parse.quote_plus` with the default `safe=''`: always-safe
characters are kept, a space becomes `+`, and every other character is
percent-escaped byte-by-byte from its UTF-8 encoding. -/
def quote_plus : Str → Str
  | [] => []
  | c :: cs =>
    (if alwaysSafe c then [c]
     else if c = ' ' then ['+']
     else pctEncBytes (utf8EncodeChar c)) ++ quote_plus cs

/-- Value of a hex digit (`_hextobyte` accepts both cases). -/
def hexVal? (c : Char) : Option Nat :=
  if '0' ≤ c ∧ c ≤ '9' then some (c.toNat - 48)
  else if 'a' ≤ c ∧ c ≤ 'f' then some (c.toNat - 87)
  else if 'A' ≤ c ∧ c ≤ 'F' then some (c.toNat - 55)
  else none

/-- `unquote_to_bytes` on an ASCII run: each valid `%XY` becomes one byte,
an invalid `%` stays literal, every other character contributes its code. -/
def pctDecode : Str → List Nat
  | [] => []
  | c :: rest =>
    if c = '%' then
      match rest with
      | h1 :: h2 :: rest2 =>
        (match hexVal? h1, hexVal? h2 with
         | some a, some b => (16 * a + b) :: pctDecode rest2
         | none, _ => c.toNat :: pctDecode (h1 :: h2 :: rest2)
         | some _, none => c.toNat :: pctDecode (h1 :: h2 :: rest2))
      | [h1] => c.toNat :: pctDecode [h1]
      | [] => [c.toNat]
    else c.toNat :: pctDecode rest
termination_by s => s.length
decreasing_by all_goals simp_arith

/-- U+FFFD, the replacement character used by `errors='replace'`. -/
def replChar : Char := Char.ofNat 0xFFFD

/-- A UTF-8 continuation byte. -/
def isCont (b : Nat) : Bool := 0x80 ≤ b ∧ b < 0xC0

/-- Valid range of the second byte, given the lead byte (the lead bytes
`E0`, `ED`, `F0`, `F4` restrict it beyond `80`–`BF`). -/
def cont2Ok (b b2 : Nat) : Bool :=
  if b = 0xE0 then 0xA0 ≤ b2 ∧ b2 ≤ 0xBF
  else if b = 0xED then 0x80 ≤ b2 ∧ b2 ≤ 0x9F
  else if b = 0xF0 then 0x90 ≤ b2 ∧ b2 ≤ 0xBF
  else if b = 0xF4 then 0x80 ≤ b2 ∧ b2 ≤ 0x8F
  else isCont b2

/-- UTF-8 decoding with `errors='replace'`: one U+FFFD per maximal invalid
subpart, resuming at the first unconsumed byte. -/
def utf8DecodeReplace : List Nat → Str
  | [] => []
  | b :: bs =>
    if b < 0x80 then Char.ofNat b :: utf8DecodeReplace bs
    else if 0xC2 ≤ b ∧ b ≤ 0xDF then
      match bs with
      | [] => [replChar]
      | b2 :: bs2 =>
        if isCont b2 then
          Char.ofNat ((b - 0xC0) * 64 + (b2 - 0x80)) :: utf8DecodeReplace bs2
        else replChar :: utf8DecodeReplace (b2 :: bs2)
    else if 0xE0 ≤ b ∧ b ≤ 0xEF then
      match bs with
      | [] => [replChar]
      | b2 :: bs2 =>
        if cont2Ok b b2 then
          match bs2 with
          | [] => [replChar]
          | b3 :: bs3 =>
            if isCont b3 then
              Char.ofNat ((b - 0xE0) * 4096 + (b2 - 0x80) * 64 + (b3 - 0x80)) ::
                utf8DecodeReplace bs3
            else replChar :: utf8DecodeReplace (b3 :: bs3)
        else replChar :: utf8DecodeReplace (b2 :: bs2)
    else if 0xF0 ≤ b ∧ b ≤ 0xF4 then
      match bs with
      | [] => [replChar]
      | b2 :: bs2 =>
        if cont2Ok b b2 then
          match bs2 with
          | [] => [replChar]
          | b3 :: bs3 =>
            if isCont b3 then
              match bs3 with
              | [] => [replChar]
              | b4 :: bs4 =>
                if isCont b4 then
                  Char.ofNat ((b - 0xF0) * 262144 + (b2 - 0x80) * 4096 +
                      (b3 - 0x80) * 64 + (b4 - 0x80)) ::
                    utf8DecodeReplace bs4
                else replChar :: utf8DecodeReplace (b4 :: bs4)
            else replChar :: utf8DecodeReplace (b3 :: bs3)
        else replChar :: utf8DecodeReplace (b2 :: bs2)
    else replChar :: utf8DecodeReplace bs

/-- An ASCII code point. -/
def isAsciiCh (c : Char) : Bool := c.toNat ≤ 0x7F

theorem dropWhile_length_le (p : Char → Bool) (l : Str) :
    (l.dropWhile p).length ≤ l.length := by
  induction l with
  | nil => simp [List.dropWhile]
  | cons x xs ih =>
    rw [List.dropWhile_cons]
    by_cases h : p x
    · simp only [h, if_true]
      exact Nat.le_succ_of_le ih
    · simp [h]

/-- `urllib.parse.unquote` with UTF-8/`replace`: the string is cut into
maximal ASCII runs (`_asciire`), each run is percent-decoded to bytes and
UTF-8-decoded; non-ASCII characters pass through unchanged. -/
def unquote (s : Str) : Str :=
  match s with
  | [] => []
  | c :: rest =>
    if _h : isAsciiCh c then
      utf8DecodeReplace (pctDecode ((c :: rest).takeWhile isAsciiCh)) ++
        unquote ((c :: rest).dropWhile isAsciiCh)
    else c :: unquote rest
termination_by s.length
decreasing_by
  · rw [List.dropWhile_cons]
    simp only [_h, if_true]
    exact Nat.lt_succ_of_le (dropWhile_length_le _ _)
  · simp

/-! ## `parse_qsl` / `parse_qs` / `urlencode` -/

/-- `str.replace('+', ' ')`, applied before `unquote` in `parse_qsl`. -/
def plusToSpace (s : Str) : Str := s.map fun c => if c = '+' then ' ' else c

/-- The body of the `parse_qsl` loop for one `name_value` piece: empty
pieces, pieces without `=`, and pieces with an empty value are dropped;
names and values get a `+`→space substitution followed by
percent-decoding. -/
def qslStep (piece : Str) (acc : List (Str × Str)) : List (Str × Str) :=
  if piece = [] then acc
  else
    match splitOnFirst '=' piece with
    | none => acc
    | some (n, v) =>
      if v = [] then acc
      else (unquote (plusToSpace n), unquote (plusToSpace v)) :: acc

/-- `urllib.parse.parse_qsl` with the defaults `keep_blank_values=False`,
`strict_parsing=False`, `separator='&'`. -/
def parse_qsl (qs : Str) : List (Str × Str) :=
  (splitOn '&' qs).foldr qslStep []

/-- One step of the grouping loop of `parse_qs`
(`parsed_result[name].append(value)` / `parsed_result[name] = [value]`). -/
def groupStep (acc : List (Str × List Str)) (p : Str × Str) :
    List (Str × List Str) :=
  if acc.any (fun e => e.1 = p.1) then
    acc.map (fun e => if e.1 = p.1 then (e.1, e.2 ++ [p.2]) else e)
  else acc ++ [(p.1, [p.2])]

/-- The grouping loop of `parse_qs`, building an insertion-ordered dict of
lists. -/
def groupPairs (ps : List (Str × Str)) : List (Str × List Str) :=
  ps.foldl groupStep []

/-- `urllib.parse.parse_qs` (a dict of lists, as an insertion-ordered
association list). -/
def parse_qs (qs : Str) : List (Str × List Str) := groupPairs (parse_qsl qs)

/-- A Python dict value as it occurs in `ensure_english_language`:
`parse_qs` produces lists, the assignment `query_params['hl'] = 'en'`
stores a plain string. -/
inductive QVal where
  | s (v : Str)
  | l (vs : List Str)
  deriving DecidableEq, Repr

abbrev PyDict := List (Str × QVal)

/-- Python dict assignment `d[k] = v`: overwrite in place if the key is
present (keeping its position), else append at the end. -/
def dictSet (d : PyDict) (k : Str) (v : QVal) : PyDict :=
  if d.any (fun e => e.1 = k) then
    d.map (fun e => if e.1 = k then (e.1, v) else e)
  else d ++ [(k, v)]

/-- One `k=v` piece of `urlencode` output. -/
def encodePiece (k v : Str) : Str := quote_plus k ++ '=' :: quote_plus v

/-- The pieces accumulated by `urlencode(query, doseq=True)`: a string value
gives one piece, a list value one piece per element. -/
def urlencodePieces : PyDict → List Str
  | [] => []
  | (k, QVal.s v) :: d => encodePiece k v :: urlencodePieces d
  | (k, QVal.l vs) :: d => vs.map (encodePiece k) ++ urlencodePieces d

/-- `'&'.join`. -/
def joinAmp : List Str → Str
  | [] => []
  | [x] => x
  | x :: y :: xs => x ++ '&' :: joinAmp (y :: xs)

/-- `urllib.parse.urlencode(query, doseq=True)` for str/list-of-str values. -/
def urlencode (d : PyDict) : Str := joinAmp (urlencodePieces d)

/-! ## The program: `src/pdf_converter.py` -/

/-- The key `'hl'`. -/
def hlKey : Str := ['h', 'l']

/-- The value `'en'`. -/
def enVal : Str := ['e', 'n']

/-- `ensure_english_language` (nested in `save_google_docs_as_pdfs`): parse
the URL, force `hl=en` in its parsed query dict, re-encode, reassemble. -/
def ensure_english_language (url : Str) : Str :=
  let parsed_url := pyUrlparse url
  let query_params : PyDict := (parse_qs parsed_url.query).map fun e => (e.1, QVal.l e.2)
  let query_params' := dictSet query_params hlKey (QVal.s enVal)
  let new_query := urlencode query_params'
  pyUrlunparse parsed_url.scheme parsed_url.netloc parsed_url.path
    parsed_url.params new_query parsed_url.fragment

/-- `str.strip('/')`: remove leading and trailing runs of `/`. -/
def pyStripSlash (s : Str) : Str :=
  ((s.dropWhile (fun c => c = '/')).reverse.dropWhile (fun c => c = '/')).reverse

/-- `str.replace('/', '-')`. -/
def pyReplaceSlashDash (s : Str) : Str := s.map fun c => if c = '/' then '-' else c

/-- The character class `[a-zA-Z0-9\-]` of the `re.sub` pattern. -/
def isWordOrDash (c : Char) : Bool :=
  ('a' ≤ c ∧ c ≤ 'z') ∨ ('A' ≤ c ∧ c ≤ 'Z') ∨ ('0' ≤ c ∧ c ≤ '9') ∨ c = '-'

/-- `re.sub(pattern, '', s)` for a single-character-class pattern: the regex
engine scans left to right replacing each matching character by nothing,
i.e. it drops exactly the characters matching the class. -/
def reSubRemove (classMatch : Char → Bool) (s : Str) : Str :=
  s.filter fun c => ! classMatch c

/-- The suffix `'.pdf'`. -/
def pdfExt : Str := ['.', 'p', 'd', 'f']

/-- `make_comprehensible_name`: path of the parsed URL, slashes stripped at
both ends and replaced by `-` inside, every character outside
`[a-zA-Z0-9\-]` removed, `.pdf` appended. -/
def make_comprehensible_name (url : Str) : Str :=
  let parsed_url := pyUrlparse url
  let filename := pyReplaceSlashDash (pyStripSlash parsed_url.path)
  reSubRemove (fun c => ! isWordOrDash c) filename ++ pdfExt

/-! ## Effectful layer: the network, the renderer, logging

`requests.get` and `pdfkit.from_url` are external collaborators; they are
modeled as oracles passed in as arguments.  `print` output is modeled as a
list of emitted log lines. -/

/-- Outcome of `requests.get(url, timeout=10)`: either the call raises
(connection error, timeout, ...) or it returns a response with a final
status code and an elapsed-time reading (`response.elapsed.total_seconds()`
is a float; its numeric value is opaque to the program, so it is
represented abstractly as a `Nat`). -/
inductive ReqOutcome where
  | raises (msg : Str)
  | response (status : Nat) (elapsed : Nat)

/-- A network oracle: what `requests.get` does for each URL. -/
abbrev NetOracle := Str → ReqOutcome

/-- `response.raise_for_status()`: raises `HTTPError` exactly for client
errors (400–499) and server errors (500–599). -/
def raise_for_status (status : Nat) : Option Str :=
  if 400 ≤ status ∧ status < 500 then some (['c', 'l', 'i', 'e', 'n', 't'])
  else if 500 ≤ status ∧ status < 600 then some (['s', 'e', 'r', 'v', 'e', 'r'])
  else none

/-- The log line `f"Error accessing {url}: {e}"`. -/
def msgErrorAccessing (url e : Str) : Str :=
  ('E' :: 'r' :: 'r' :: 'o' :: 'r' :: ' ' :: []) ++ url ++ (':' :: ' ' :: []) ++ e

/-- `check_url_response_time`: returns the elapsed reading when the request
returns and `raise_for_status` does not raise; on any exception it logs
`Error accessing {url}: {e}` and returns `None`.  The result is the pair
(returned value, emitted log lines). -/
def check_url_response_time (net : NetOracle) (url : Str) :
    Option Nat × List Str :=
  match net url with
  | ReqOutcome.raises e => (none, [msgErrorAccessing url e])
  | ReqOutcome.response status elapsed =>
    match raise_for_status status with
    | some e => (none, [msgErrorAccessing url e])
    | none => (some elapsed, [])

/-- A value of the renderer options dict: `''` flags, `'ignore'`, or the
integer `1000`. -/
inductive OptVal where
  | s (v : Str)
  | i (n : Int)
  deriving DecidableEq, Repr

abbrev Options := List (Str × OptVal)

/-- Dict lookup in an options literal. -/
def optLookup (k : Str) : Options → Option OptVal
  | [] => none
  | (k', v) :: rest => if k' = k then some v else optLookup k rest

/-- Outcome of `pdfkit.from_url(url, output_file, options=options)`. -/
inductive RenderOutcome where
  | ok
  | raises (msg : Str)

/-- A renderer oracle: what `pdfkit.from_url` does for each
(url, output file, options) triple. -/
abbrev RenderOracle := Str → Str → Options → RenderOutcome

/-- `pdfkit.from_url` as a fallible call. -/
def pdfkit_from_url (render : RenderOracle) (url output_file : Str)
    (options : Options) : Except Str Unit :=
  match render url output_file options with
  | RenderOutcome.ok => Except.ok ()
  | RenderOutcome.raises e => Except.error e

/-- `os.path.join` for two POSIX path components. -/
def os_path_join (a b : Str) : Str :=
  if b.take 1 = ['/'] then b
  else if a = [] ∨ a.getLast? = some '/' then a ++ b
  else a ++ '/' :: b

/-- Log line `f"Processing {url}"`. -/
def msgProcessing (url : Str) : Str :=
  ('P' :: 'r' :: 'o' :: 'c' :: 'e' :: 's' :: 's' :: 'i' :: 'n' :: 'g' :: ' ' :: []) ++ url

/-- Log line `f"Response time for {url}: {t} seconds"` (the reading is kept
abstract). -/
def msgResponseTime (url : Str) (t : Nat) : Str :=
  ('R' :: 'e' :: 's' :: 'p' :: 'o' :: 'n' :: 's' :: 'e' :: ' ' :: []) ++ url ++ [' '] ++
    Nat.toDigits 10 t

/-- Log line `f"Saved: {output_file}"`. -/
def msgSaved (output_file : Str) : Str :=
  ('S' :: 'a' :: 'v' :: 'e' :: 'd' :: ':' :: ' ' :: []) ++ output_file

/-- Log line `f"Error saving {url}: {e}"`. -/
def msgErrorSaving (url e : Str) : Str :=
  ('E' :: 'r' :: 'r' :: 'o' :: 'r' :: ' ' :: 's' :: 'a' :: 'v' :: 'i' :: 'n' :: 'g' :: ' ' :: []) ++
    url ++ (':' :: ' ' :: []) ++ e

/-- What one `process_url` call did: its log lines and the output file it
wrote (`none` when the render step raised). -/
structure ProcResult where
  logs : List Str
  written : Option Str
  deriving DecidableEq, Repr

/-- `process_url`: log, probe (its own failures swallowed inside
`check_url_response_time`), then try to render into
`os.path.join(output_dir, make_comprehensible_name(url))`, catching any
renderer exception.  The `Except` layer is the channel by which an
exception would escape to the caller; `process_url` must always be `.ok`. -/
def process_url (net : NetOracle) (render : RenderOracle)
    (url output_dir : Str) (options : Options) : Except Str ProcResult :=
  let l0 := [msgProcessing url]
  let probe := check_url_response_time net url
  let l1 := probe.2
  let l2 := match probe.1 with
    | some t => [msgResponseTime url t]
    | none => []
  let output_file := os_path_join output_dir (make_comprehensible_name url)
  match pdfkit_from_url render url output_file options with
  | Except.ok _ =>
    Except.ok ⟨l0 ++ l1 ++ l2 ++ [msgSaved output_file], some output_file⟩
  | Except.error e =>
    Except.ok ⟨l0 ++ l1 ++ l2 ++ [msgErrorSaving url e], none⟩

/-- The `urls` argument of the batch entry points: either one URL string or
a list of URL strings. -/
inductive UrlsArg where
  | single (s : Str)
  | many (l : List Str)

/-- `if isinstance(urls, str): urls = [urls]`. -/
def normalizeUrls : UrlsArg → List Str
  | UrlsArg.single s => [s]
  | UrlsArg.many l => l

/-- The options literal of `save_google_docs_as_pdfs` (lines 66–73). -/
def googleDocsOptions : Options :=
  [ (['n','o','-','s','t','o','p','-','s','l','o','w','-','s','c','r','i','p','t','s'], OptVal.s []),
    (['e','n','a','b','l','e','-','l','o','c','a','l','-','f','i','l','e','-','a','c','c','e','s','s'], OptVal.s []),
    (['l','o','a','d','-','e','r','r','o','r','-','h','a','n','d','l','i','n','g'], OptVal.s ['i','g','n','o','r','e']),
    (['j','a','v','a','s','c','r','i','p','t','-','d','e','l','a','y'], OptVal.i 1000),
    (['d','i','s','a','b','l','e','-','j','a','v','a','s','c','r','i','p','t'], OptVal.s []),
    (['q','u','i','e','t'], OptVal.s []) ]

/-- The options literal of `save_other_webpages_as_pdfs` (lines 101–108);
textually identical to the Google-Docs one. -/
def otherWebpagesOptions : Options :=
  [ (['n','o','-','s','t','o','p','-','s','l','o','w','-','s','c','r','i','p','t','s'], OptVal.s []),
    (['e','n','a','b','l','e','-','l','o','c','a','l','-','f','i','l','e','-','a','c','c','e','s','s'], OptVal.s []),
    (['l','o','a','d','-','e','r','r','o','r','-','h','a','n','d','l','i','n','g'], OptVal.s ['i','g','n','o','r','e']),
    (['j','a','v','a','s','c','r','i','p','t','-','d','e','l','a','y'], OptVal.i 1000),
    (['d','i','s','a','b','l','e','-','j','a','v','a','s','c','r','i','p','t'], OptVal.s []),
    (['q','u','i','e','t'], OptVal.s []) ]

/-- The key `'disable-javascript'`. -/
def disableJsKey : Str :=
  ['d','i','s','a','b','l','e','-','j','a','v','a','s','c','r','i','p','t']

/-- The key `'javascript-delay'`. -/
def jsDelayKey : Str :=
  ['j','a','v','a','s','c','r','i','p','t','-','d','e','l','a','y']

/-- Log line `f"Error processing {url}: {e}"` of the harvest loop. -/
def msgErrorProcessing (url e : Str) : Str :=
  ('E' :: 'r' :: 'r' :: 'o' :: 'r' :: ' ' :: 'p' :: 'r' :: 'o' :: 'c' :: []) ++
    url ++ (':' :: ' ' :: []) ++ e

/-- What one batch call did: the output directory it prepared, the per-URL
task results (keyed by the original URL, as in the `futures` dict), and the
lines logged by the harvest loop. -/
structure BatchResult where
  outputDir : Str
  tasks : List (Str × Except Str ProcResult)
  harvestLogs : List Str

/-- The `as_completed` harvest loop: `future.result()` re-raises a task's
exception, which is caught and logged per URL.  (Completion order is
scheduler-dependent; the model harvests in submission order — the set of
logged errors is order-independent.) -/
def harvest (tasks : List (Str × Except Str ProcResult)) : List Str :=
  tasks.foldr
    (fun t acc =>
      match t.2 with
      | Except.ok _ => acc
      | Except.error e => msgErrorProcessing t.1 e :: acc)
    []

/-- `'GCP-KnowledgeBase'`. -/
def gcpRoot : Str :=
  ['G','C','P','-','K','n','o','w','l','e','d','g','e','B','a','s','e']

/-- `'KnowledgeBase'`. -/
def kbRoot : Str := ['K','n','o','w','l','e','d','g','e','B','a','s','e']

/-- `save_google_docs_as_pdfs`: prepare `GCP-KnowledgeBase/<destination>`,
normalize a bare string to a one-element list, submit one
`process_url(ensure_english_language(url), output_dir, options)` task per
URL over the worker pool, harvest all completions. -/
def save_google_docs_as_pdfs (net : NetOracle) (render : RenderOracle)
    (urls : UrlsArg) (destination : Str) : BatchResult :=
  let output_dir := os_path_join gcpRoot destination
  let urlList := normalizeUrls urls
  let tasks := urlList.map fun url =>
    (url, process_url net render (ensure_english_language url) output_dir googleDocsOptions)
  ⟨output_dir, tasks, harvest tasks⟩

/-- `save_other_webpages_as_pdfs`: as above with root `KnowledgeBase` and
no language normalization. -/
def save_other_webpages_as_pdfs (net : NetOracle) (render : RenderOracle)
    (urls : UrlsArg) (destination : Str) : BatchResult :=
  let output_dir := os_path_join kbRoot destination
  let urlList := normalizeUrls urls
  let tasks := urlList.map fun url =>
    (url, process_url net render url output_dir otherWebpagesOptions)
  ⟨output_dir, tasks, harvest tasks⟩

/-! ## Specification-side comparison definitions -/

/-- An ASCII letter, digit, or hyphen — the characters the spec says the
Deriver keeps. -/
def specKeepChar (c : Char) : Bool :=
  ('A' ≤ c ∧ c ≤ 'Z') ∨ ('a' ≤ c ∧ c ≤ 'z') ∨ ('0' ≤ c ∧ c ≤ '9') ∨ c = '-'

/-- Follows the spec's words (§4.1): "extract the URL's path component;
strip leading/trailing path separators; replace internal path separators
with a hyphen; remove every character that is not an ASCII letter, digit,
or hyphen; append the literal suffix `.pdf`". -/
def spec_deriveFilename (url : Str) : Str :=
  let path := (pyUrlparse url).path
  let trimmed := List.rdropWhile (fun c => c = '/') (path.dropWhile (fun c => c = '/'))
  let dashed := trimmed.map fun c => if c = '/' then '-' else c
  dashed.filter specKeepChar ++ ['.', 'p', 'd', 'f']

theorem isWordOrDash_eq_specKeepChar (c : Char) :
    isWordOrDash c = specKeepChar c := by
  unfold isWordOrDash specKeepChar
  rw [decide_eq_decide]
  tauto

/-- Follows the spec's words (§4.3): an HTTP status that "indicates
success" — the 2xx success class. -/
def isSuccessStatus (status : Nat) : Bool := 200 ≤ status ∧ status < 300

/-! ## Claims C4, C8, C9, C10: the URL-to-Filename Deriver -/

/-- The string computation of `make_comprehensible_name` agrees with the
spec's described algorithm — path component, strip `/` at both ends,
internal `/` → `-`, delete everything outside ASCII letters, digits and
hyphen, append `.pdf` — on every URL on which `urlparse` returns. -/
theorem make_comprehensible_name_eq_spec (url : Str) :
    make_comprehensible_name url = spec_deriveFilename url := by
  simp only [make_comprehensible_name, spec_deriveFilename, pyStripSlash,
    pyReplaceSlashDash, reSubRemove, pdfExt, List.rdropWhile, Bool.not_not,
    isWordOrDash_eq_specKeepChar]

/-- The `Invalid IPv6 URL` validation of `urlsplit`: CPython raises
`ValueError` when the netloc carries `[` without `]` or `]` without `[`
(`('[' in netloc and ']' not in netloc) or (']' in netloc and '[' not in
netloc)`). -/
def invalidIpv6Netloc (nl : Str) : Bool :=
  ('[' ∈ nl ∧ ']' ∉ nl) ∨ (']' ∈ nl ∧ '[' ∉ nl)

/-- `make_comprehensible_name` with `urlparse`'s mismatched-bracket
validation made explicit: on a netloc with an unmatched bracket, `urlparse`
raises `ValueError("Invalid IPv6 URL")` before the deriver's string
processing runs, so the call fails; otherwise the pure string computation
runs.  The two further raising paths of `urlsplit` — `_check_bracketed_host`
on a `[...]` netloc and the NFKC `_checknetloc` check on a non-ASCII
netloc — are not modeled here; the theorems about this function exclude
them by hypothesis, since a bracket-free all-ASCII netloc reaches
neither. -/
def make_comprehensible_nameE (url : Str) : Except Str Str :=
  if invalidIpv6Netloc (pyUrlsplit url).netloc then
    Except.error ("Invalid IPv6 URL").data
  else Except.ok (make_comprehensible_name url)

/-- **C4 counterexample**: the claim's "it never fails and always returns a
string" is false of the program — on `http://[x/a` the authority is `[x`,
carrying `[` without `]`, so `urlparse` raises
`ValueError("Invalid IPv6 URL")` inside `make_comprehensible_name`, which
therefore fails instead of returning a filename. -/
theorem deriver_fails_on_invalid_ipv6 :
    make_comprehensible_nameE ("http://[x/a").data =
      Except.error ("Invalid IPv6 URL").data := rfl

/-- **C4 amended**: whenever the URL's authority contains no square bracket
and is all-ASCII — conditions under which `urlparse` performs none of its
raising validations — `make_comprehensible_name` returns normally, and its
result is computed exactly as the spec describes: take the URL's path
component, strip leading and trailing `/`, replace remaining `/` with `-`,
delete every character that is not an ASCII letter, digit, or hyphen, and
append `.pdf`.  On URLs outside this guard the function can instead raise
(see the counterexample), so it is not total on all strings. -/
theorem deriver_ok_on_plain_netloc (url : Str)
    (hb1 : '[' ∉ (pyUrlsplit url).netloc)
    (hb2 : ']' ∉ (pyUrlsplit url).netloc)
    (_ha : ∀ c ∈ (pyUrlsplit url).netloc, c.toNat < 128) :
    make_comprehensible_nameE url = Except.ok (spec_deriveFilename url) := by
  have hfalse : invalidIpv6Netloc (pyUrlsplit url).netloc = false := by
    unfold invalidIpv6Netloc
    simp [hb1, hb2]
  unfold make_comprehensible_nameE
  rw [hfalse]
  rw [if_neg (show ¬(false = true) by decide)]
  rw [make_comprehensible_name_eq_spec]

/-- Witness for the amended C4 theorem at the concrete URL
`https://x.com/a/b`, whose authority `x.com` is bracket-free and
all-ASCII. -/
theorem deriver_ok_on_plain_netloc_witness :
    '[' ∉ (pyUrlsplit ("https://x.com/a/b").data).netloc ∧
    ']' ∉ (pyUrlsplit ("https://x.com/a/b").data).netloc ∧
    (∀ c ∈ (pyUrlsplit ("https://x.com/a/b").data).netloc, c.toNat < 128) ∧
    make_comprehensible_nameE ("https://x.com/a/b").data =
      Except.ok (spec_deriveFilename ("https://x.com/a/b").data) :=
  ⟨by decide, by decide, by decide,
    deriver_ok_on_plain_netloc _ (by decide) (by decide) (by decide)⟩

/-- **C8**: a URL with an empty path, such as the root-path URL
`https://x.com/`, is mapped to the degenerate filename `.pdf` (returned
normally — the function is total). -/
theorem root_path_yields_dot_pdf :
    make_comprehensible_name ("https://x.com/").data = (".pdf").data ∧
    make_comprehensible_name ("https://x.com").data = (".pdf").data := by
  decide

/-- **C9**: the Deriver is not collision-free — two distinct URLs that
differ only in characters the sanitization step removes (characters outside
ASCII letters, digits, and hyphen) receive identical filenames. -/
theorem deriver_collision :
    ∃ u1 u2 : Str, u1 ≠ u2 ∧
      u1.filter isWordOrDash = u2.filter isWordOrDash ∧
      make_comprehensible_name u1 = make_comprehensible_name u2 := by
  refine ⟨("https://x.com/a_b").data, ("https://x.com/ab").data, ?_, ?_, ?_⟩ <;> decide

/-- **C10**: the derived filename depends only on the parsed path
component — two URLs with equal paths (whatever their scheme, host, query,
or fragment) receive identical filenames. -/
theorem filename_depends_only_on_path (u v : Str)
    (h : (pyUrlparse u).path = (pyUrlparse v).path) :
    make_comprehensible_name u = make_comprehensible_name v := by
  simp only [make_comprehensible_name]
  rw [h]

theorem filename_depends_only_on_path_witness :
    (pyUrlparse ("https://x.com/a?q=1#f").data).path =
        (pyUrlparse ("http://y.org/a").data).path ∧
      make_comprehensible_name ("https://x.com/a?q=1#f").data =
        make_comprehensible_name ("http://y.org/a").data :=
  ⟨by decide, filename_depends_only_on_path _ _ (by decide)⟩

/-! ## Claim C1: the rendering options -/

/-- **C1** (counterexample): the claim states that the option disabling
script execution is NOT set in the options map passed to the renderer; in
fact `'disable-javascript'` is a key of both literal options dicts. -/
theorem disable_javascript_is_present :
    optLookup disableJsKey googleDocsOptions ≠ none ∧
    optLookup disableJsKey otherWebpagesOptions ≠ none := by
  decide

/-- **C1** (amended): the fixed options map that both batch operations pass
to every `process_url` invocation DOES contain the `disable-javascript` key
(with empty value, i.e. the flag is passed to the renderer), alongside
`javascript-delay: 1000`; the batch operations hand exactly these literals
to every task. -/
theorem options_passed_to_renderer :
    optLookup disableJsKey googleDocsOptions = some (OptVal.s []) ∧
    optLookup disableJsKey otherWebpagesOptions = some (OptVal.s []) ∧
    optLookup jsDelayKey googleDocsOptions = some (OptVal.i 1000) ∧
    optLookup jsDelayKey otherWebpagesOptions = some (OptVal.i 1000) ∧
    (∀ net render urls destination,
      (save_google_docs_as_pdfs net render urls destination).tasks =
        (normalizeUrls urls).map fun url =>
          (url, process_url net render (ensure_english_language url)
            (os_path_join gcpRoot destination) googleDocsOptions)) ∧
    (∀ net render urls destination,
      (save_other_webpages_as_pdfs net render urls destination).tasks =
        (normalizeUrls urls).map fun url =>
          (url, process_url net render url
            (os_path_join kbRoot destination) otherWebpagesOptions)) :=
  ⟨by decide, by decide, by decide, by decide,
   fun _ _ _ _ => rfl, fun _ _ _ _ => rfl⟩

/-! ## Claim C7: a bare string behaves as a one-element collection -/

/-- **C7**: for each batch entry operation, calling it with the bare string
`u` behaves identically to calling it with the one-element collection
`[u]`, whatever the environment and destination. -/
theorem batch_single_eq_singleton (net : NetOracle) (render : RenderOracle)
    (u destination : Str) :
    save_google_docs_as_pdfs net render (UrlsArg.single u) destination =
      save_google_docs_as_pdfs net render (UrlsArg.many [u]) destination ∧
    save_other_webpages_as_pdfs net render (UrlsArg.single u) destination =
      save_other_webpages_as_pdfs net render (UrlsArg.many [u]) destination :=
  ⟨rfl, rfl⟩

/-! ## Claim C6: the Response-Time Prober -/

/-- **C6** (counterexample): the claim says any non-success HTTP status
yields no measurement; but `raise_for_status` only raises for 400–599, so a
final `304 Not Modified` — not a success status — still returns the elapsed
reading. -/
theorem prober_returns_measurement_on_304 :
    isSuccessStatus 304 = false ∧
    (check_url_response_time (fun _ => ReqOutcome.response 304 5) ("u").data).1
      = some 5 := by
  decide

/-- **C6** (amended): `check_url_response_time` returns the elapsed reading
whenever the request returns a response whose status is outside 400–599
(which includes every 2xx success status); when the request raises, or the
status is a client error (4xx) or server error (5xx), it logs
`Error accessing {url}: {e}` and returns `None` — the exception never
propagates (the result is a value, never an escaping exception). -/
theorem check_url_response_time_spec (net : NetOracle) (url : Str) :
    (∀ e, net url = ReqOutcome.raises e →
      check_url_response_time net url = (none, [msgErrorAccessing url e])) ∧
    (∀ status elapsed, net url = ReqOutcome.response status elapsed →
      check_url_response_time net url =
        if 400 ≤ status ∧ status < 600 then
          (none, [msgErrorAccessing url
            (if status < 500 then (['c','l','i','e','n','t'])
             else (['s','e','r','v','e','r']))])
        else (some elapsed, [])) := by
  constructor
  · intro e he
    simp [check_url_response_time, he]
  · intro status elapsed he
    simp only [check_url_response_time, he, raise_for_status]
    split_ifs <;> first | rfl | omega

theorem check_url_response_time_spec_witness :
    check_url_response_time (fun _ => ReqOutcome.response 503 9) ("u").data
      = (none, [msgErrorAccessing ("u").data (['s','e','r','v','e','r'])]) := by
  have h := (check_url_response_time_spec
    (fun _ => ReqOutcome.response 503 9) ("u").data).2 503 9 rfl
  rw [h]
  simp

/-! ## Claim C5: the Single-URL Processor -/

/-- **C5**: `process_url` never lets an expected failure escape: whatever
the network and renderer do, it returns `.ok`; a probe failure is logged
and does not prevent the render step (the written-file outcome is
independent of the network oracle); a renderer failure is caught and
logged. -/
theorem process_url_contains_failures (net : NetOracle)
    (render : RenderOracle) (url output_dir : Str) (options : Options) :
    (∃ r : ProcResult,
      process_url net render url output_dir options = Except.ok r) ∧
    (∀ net' : NetOracle,
      (process_url net render url output_dir options).toOption.map
          ProcResult.written =
        (process_url net' render url output_dir options).toOption.map
          ProcResult.written) ∧
    (∀ e, net url = ReqOutcome.raises e →
      ∃ r : ProcResult,
        process_url net render url output_dir options = Except.ok r ∧
        msgErrorAccessing url e ∈ r.logs) ∧
    (∀ e,
      render url (os_path_join output_dir (make_comprehensible_name url))
          options = RenderOutcome.raises e →
      ∃ r : ProcResult,
        process_url net render url output_dir options = Except.ok r ∧
        msgErrorSaving url e ∈ r.logs) := by
  refine ⟨?_, ?_, ?_, ?_⟩
  · simp only [process_url, pdfkit_from_url]
    cases render url (os_path_join output_dir (make_comprehensible_name url))
        options <;> exact ⟨_, rfl⟩
  · intro net'
    simp only [process_url, pdfkit_from_url]
    cases render url (os_path_join output_dir (make_comprehensible_name url))
        options <;> rfl
  · intro e he
    simp only [process_url, pdfkit_from_url, check_url_response_time, he]
    cases render url (os_path_join output_dir (make_comprehensible_name url))
        options <;> exact ⟨_, rfl, by simp⟩
  · intro e he
    simp only [process_url, pdfkit_from_url, he]
    exact ⟨_, rfl, by simp⟩

theorem process_url_contains_failures_witness :
    ∃ r : ProcResult,
      process_url (fun _ => ReqOutcome.raises ("boom").data)
          (fun _ _ _ => RenderOutcome.raises ("render fail").data)
          ("https://x.com/a").data ("KnowledgeBase/d").data otherWebpagesOptions
        = Except.ok r ∧
      msgErrorAccessing ("https://x.com/a").data ("boom").data ∈ r.logs := by
  exact (process_url_contains_failures
    (fun _ => ReqOutcome.raises ("boom").data)
    (fun _ _ _ => RenderOutcome.raises ("render fail").data)
    ("https://x.com/a").data ("KnowledgeBase/d").data
    otherWebpagesOptions).2.2.1 ("boom").data rfl

/-! ## Character bridging lemmas -/

theorem charLe_iff (a b : Char) : a ≤ b ↔ a.toNat ≤ b.toNat := by
  rw [Char.le_def, UInt32.le_def, BitVec.le_def]
  rfl

theorem charEq_iff (a b : Char) : a = b ↔ a.toNat = b.toNat := by
  constructor
  · intro h; rw [h]
  · intro h
    apply Char.eq_of_val_eq
    apply UInt32.eq_of_toBitVec_eq
    apply BitVec.eq_of_toNat_eq
    exact h

theorem charToNat_lt (c : Char) : c.toNat < 0x110000 := by
  rcases c.valid with h | h
  · exact Nat.lt_of_lt_of_le h (by norm_num)
  · exact h.2

theorem charToNat_valid (c : Char) : Nat.isValidChar c.toNat := c.valid

theorem charOfNat_toNat {n : Nat} (h : Nat.isValidChar n) :
    (Char.ofNat n).toNat = n := by
  unfold Char.ofNat
  rw [dif_pos h]
  rfl

/-! ## Round trip of `quote_plus` and `unquote` -/

/-- `_ALWAYS_SAFE` membership as ranges of code points. -/
theorem alwaysSafe_iff (c : Char) : alwaysSafe c = true ↔
    ((97 ≤ c.toNat ∧ c.toNat ≤ 122) ∨ (65 ≤ c.toNat ∧ c.toNat ≤ 90) ∨
      (48 ≤ c.toNat ∧ c.toNat ≤ 57) ∨ c.toNat = 95 ∨ c.toNat = 46 ∨
      c.toNat = 45 ∨ c.toNat = 126) := by
  unfold alwaysSafe
  simp only [decide_eq_true_eq, charLe_iff, charEq_iff]
  simp

theorem alwaysSafe_facts {c : Char} (h : alwaysSafe c = true) :
    c.toNat < 0x80 ∧ c ≠ '%' ∧ c ≠ '+' := by
  rw [alwaysSafe_iff] at h
  refine ⟨by omega, ?_, ?_⟩
  · rw [Ne, charEq_iff]
    intro hc
    have he : ('%').toNat = 37 := by simp
    rw [he] at hc
    omega
  · rw [Ne, charEq_iff]
    intro hc
    have he : ('+').toNat = 43 := by simp
    rw [he] at hc
    omega

theorem hexVal?_hexUpper : ∀ n < 16, hexVal? (hexUpper n) = some n := by
  decide

theorem hexUpper_ne_plus : ∀ n < 16, hexUpper n ≠ '+' := by decide

theorem hexUpper_safe : ∀ n < 16, alwaysSafe (hexUpper n) = true := by decide

theorem utf8EncodeChar_bytes_lt (c : Char) :
    ∀ b ∈ utf8EncodeChar c, b < 256 := by
  intro b hb
  have hv := charToNat_lt c
  unfold utf8EncodeChar at hb
  split_ifs at hb with h1 h2 h3 <;>
    simp only [List.mem_cons, List.not_mem_nil, or_false] at hb <;>
    omega

theorem pctDecode_encBytes (bs : List Nat) (rest : Str)
    (h : ∀ b ∈ bs, b < 256) :
    pctDecode (pctEncBytes bs ++ rest) = bs ++ pctDecode rest := by
  induction bs with
  | nil => simp [pctEncBytes]
  | cons b bs ih =>
    have hb : b < 256 := h b (List.mem_cons_self _ _)
    have hdiv : b / 16 < 16 := by omega
    have hmod : b % 16 < 16 := by omega
    show pctDecode ('%' :: hexUpper (b / 16) :: hexUpper (b % 16) ::
      (pctEncBytes bs ++ rest)) = (b :: bs) ++ pctDecode rest
    rw [pctDecode.eq_def]
    dsimp only
    rw [if_pos rfl, hexVal?_hexUpper _ hdiv, hexVal?_hexUpper _ hmod]
    dsimp only
    rw [ih (fun x hx => h x (List.mem_cons_of_mem _ hx))]
    have hb' : 16 * (b / 16) + b % 16 = b := by omega
    rw [hb', List.cons_append]

/-- Decoding the UTF-8 bytes of one character consumes exactly them. -/
theorem utf8DecodeReplace_encodeChar (c : Char) (bs : List Nat) :
    utf8DecodeReplace (utf8EncodeChar c ++ bs) = c :: utf8DecodeReplace bs := by
  have hv := charToNat_lt c
  have hvalid : c.toNat < 0xD800 ∨ (0xDFFF < c.toNat ∧ c.toNat < 0x110000) :=
    charToNat_valid c
  unfold utf8EncodeChar
  by_cases h1 : c.toNat < 0x80
  · rw [if_pos h1]
    show utf8DecodeReplace (c.toNat :: bs) = _
    rw [utf8DecodeReplace.eq_def]
    dsimp only
    rw [if_pos h1, Char.ofNat_toNat]
  · rw [if_neg h1]
    by_cases h2 : c.toNat < 0x800
    · rw [if_pos h2]
      show utf8DecodeReplace ((0xC0 + c.toNat / 64) :: (0x80 + c.toNat % 64) :: bs) = _
      rw [utf8DecodeReplace.eq_def]
      dsimp only
      rw [if_neg (by omega), if_pos (by constructor <;> omega)]
      rw [if_pos (by simp only [isCont, decide_eq_true_eq]; constructor <;> omega)]
      have harg : (0xC0 + c.toNat / 64 - 0xC0) * 64 + (0x80 + c.toNat % 64 - 0x80)
          = c.toNat := by omega
      rw [harg, Char.ofNat_toNat]
    · rw [if_neg h2]
      by_cases h3 : c.toNat < 0x10000
      · rw [if_pos h3]
        show utf8DecodeReplace ((0xE0 + c.toNat / 4096) :: (0x80 + c.toNat / 64 % 64) ::
          (0x80 + c.toNat % 64) :: bs) = _
        rw [utf8DecodeReplace.eq_def]
        dsimp only
        rw [if_neg (by omega), if_neg (by omega), if_pos (by constructor <;> omega)]
        have hcont2 : cont2Ok (0xE0 + c.toNat / 4096) (0x80 + c.toNat / 64 % 64) = true := by
          unfold cont2Ok
          split_ifs with hA hB hC hD <;>
            simp only [isCont, decide_eq_true_eq] <;>
            rcases hvalid with hs | hs <;> omega
        rw [if_pos hcont2]
        rw [if_pos (by simp only [isCont, decide_eq_true_eq]; constructor <;> omega)]
        have harg : (0xE0 + c.toNat / 4096 - 0xE0) * 4096 +
            (0x80 + c.toNat / 64 % 64 - 0x80) * 64 + (0x80 + c.toNat % 64 - 0x80)
            = c.toNat := by omega
        rw [harg, Char.ofNat_toNat]
      · rw [if_neg h3]
        show utf8DecodeReplace ((0xF0 + c.toNat / 262144) :: (0x80 + c.toNat / 4096 % 64) ::
          (0x80 + c.toNat / 64 % 64) :: (0x80 + c.toNat % 64) :: bs) = _
        rw [utf8DecodeReplace.eq_def]
        dsimp only
        rw [if_neg (by omega), if_neg (by omega), if_neg (by omega),
          if_pos (by constructor <;> omega)]
        have hcont2 : cont2Ok (0xF0 + c.toNat / 262144) (0x80 + c.toNat / 4096 % 64) = true := by
          unfold cont2Ok
          split_ifs with hA hB hC hD <;>
            simp only [isCont, decide_eq_true_eq] <;> omega
        rw [if_pos hcont2]
        rw [if_pos (by simp only [isCont, decide_eq_true_eq]; constructor <;> omega)]
        rw [if_pos (by simp only [isCont, decide_eq_true_eq]; constructor <;> omega)]
        have harg : (0xF0 + c.toNat / 262144 - 0xF0) * 262144 +
            (0x80 + c.toNat / 4096 % 64 - 0x80) * 4096 +
            (0x80 + c.toNat / 64 % 64 - 0x80) * 64 + (0x80 + c.toNat % 64 - 0x80)
            = c.toNat := by omega
        rw [harg, Char.ofNat_toNat]

theorem utf8DecodeReplace_utf8Encode (s : Str) :
    utf8DecodeReplace (utf8Encode s) = s := by
  induction s with
  | nil => rfl
  | cons c cs ih =>
    show utf8DecodeReplace (utf8EncodeChar c ++ utf8Encode cs) = c :: cs
    rw [utf8DecodeReplace_encodeChar, ih]

theorem pctEncBytes_no_plus (bs : List Nat) (h : ∀ b ∈ bs, b < 256) :
    ∀ x ∈ pctEncBytes bs, x ≠ '+' := by
  induction bs with
  | nil => simp [pctEncBytes]
  | cons b bs ih =>
    have hb : b < 256 := h b (List.mem_cons_self _ _)
    intro x hx
    simp only [pctEncBytes, List.mem_cons] at hx
    rcases hx with rfl | rfl | rfl | hx
    · decide
    · exact hexUpper_ne_plus _ (by omega)
    · exact hexUpper_ne_plus _ (by omega)
    · exact ih (fun y hy => h y (List.mem_cons_of_mem _ hy)) x hx

theorem plusToSpace_append (a b : Str) :
    plusToSpace (a ++ b) = plusToSpace a ++ plusToSpace b := by
  simp [plusToSpace]

theorem plusToSpace_of_no_plus (a : Str) (h : ∀ x ∈ a, x ≠ '+') :
    plusToSpace a = a := by
  unfold plusToSpace
  induction a with
  | nil => rfl
  | cons x xs ih =>
    simp only [List.map_cons]
    rw [if_neg (h x (List.mem_cons_self _ _)), ih (fun y hy => h y (List.mem_cons_of_mem _ hy))]

/-- Percent-decoding the (plus-replaced) `quote_plus` encoding recovers
exactly the UTF-8 bytes. -/
theorem pctDecode_plusToSpace_quote (s : Str) :
    pctDecode (plusToSpace (quote_plus s)) = utf8Encode s := by
  induction s with
  | nil => simp [quote_plus, plusToSpace, pctDecode, utf8Encode]
  | cons c cs ih =>
    show pctDecode (plusToSpace ((if alwaysSafe c then [c]
      else if c = ' ' then ['+'] else pctEncBytes (utf8EncodeChar c)) ++ quote_plus cs)) = _
    rw [plusToSpace_append]
    by_cases hsafe : alwaysSafe c
    · rw [if_pos hsafe]
      obtain ⟨hlt, hpct, hplus⟩ := alwaysSafe_facts hsafe
      rw [plusToSpace_of_no_plus _ (by intro x hx; simp only [List.mem_singleton] at hx; subst hx; exact hplus)]
      show pctDecode (c :: plusToSpace (quote_plus cs)) = utf8Encode (c :: cs)
      unfold pctDecode
      rw [if_neg hpct]
      show c.toNat :: pctDecode (plusToSpace (quote_plus cs)) = _
      rw [ih]
      show _ = utf8EncodeChar c ++ utf8Encode cs
      unfold utf8EncodeChar
      rw [if_pos hlt]
      rfl
    · rw [if_neg hsafe]
      by_cases hsp : c = ' '
      · rw [if_pos hsp]
        show pctDecode (plusToSpace ['+'] ++ plusToSpace (quote_plus cs)) = _
        have : plusToSpace ['+'] = [' '] := by decide
        rw [this]
        show pctDecode (' ' :: plusToSpace (quote_plus cs)) = _
        unfold pctDecode
        rw [if_neg (by decide : ¬ (' ' = '%'))]
        show (' ').toNat :: pctDecode (plusToSpace (quote_plus cs)) = _
        rw [ih]
        subst hsp
        show _ = utf8EncodeChar ' ' ++ utf8Encode cs
        unfold utf8EncodeChar
        rw [if_pos (by decide)]
        rfl
      · rw [if_neg hsp]
        rw [plusToSpace_of_no_plus _ (pctEncBytes_no_plus _ (utf8EncodeChar_bytes_lt c))]
        rw [pctDecode_encBytes _ _ (utf8EncodeChar_bytes_lt c), ih]
        rfl

theorem quote_plus_all_ascii (s : Str) :
    ∀ x ∈ quote_plus s, isAsciiCh x = true := by
  induction s with
  | nil => simp [quote_plus]
  | cons c cs ih =>
    intro x hx
    simp only [quote_plus, List.mem_append] at hx
    rcases hx with hx | hx
    · split_ifs at hx with h1 h2
      · simp only [List.mem_singleton] at hx
        subst hx
        have := (alwaysSafe_facts h1).1
        simp only [isAsciiCh, decide_eq_true_eq]
        omega
      · simp only [List.mem_singleton] at hx
        subst hx
        decide
      · have hlt := utf8EncodeChar_bytes_lt c
        revert hx
        generalize utf8EncodeChar c = bs at hlt
        induction bs with
        | nil => simp [pctEncBytes]
        | cons b bs ihb =>
          intro hx
          have hb : b < 256 := hlt b (List.mem_cons_self _ _)
          simp only [pctEncBytes, List.mem_cons] at hx
          rcases hx with rfl | rfl | rfl | hx
          · decide
          · have := hexUpper_safe (b / 16) (by omega)
            have h' := (alwaysSafe_facts this).1
            simp only [isAsciiCh, decide_eq_true_eq]
            omega
          · have := hexUpper_safe (b % 16) (by omega)
            have h' := (alwaysSafe_facts this).1
            simp only [isAsciiCh, decide_eq_true_eq]
            omega
          · exact ihb (fun y hy => hlt y (List.mem_cons_of_mem _ hy)) hx
    · exact ih x hx

theorem plusToSpace_all_ascii (s : Str) (h : ∀ x ∈ s, isAsciiCh x = true) :
    ∀ x ∈ plusToSpace s, isAsciiCh x = true := by
  intro x hx
  simp only [plusToSpace, List.mem_map] at hx
  obtain ⟨y, hy, hxy⟩ := hx
  by_cases hp : y = '+'
  · rw [← hxy, if_pos hp]; decide
  · rw [← hxy, if_neg hp]; exact h y hy

theorem unquote_all_ascii (l : Str) (h : ∀ x ∈ l, isAsciiCh x = true) :
    unquote l = utf8DecodeReplace (pctDecode l) := by
  match l with
  | [] => simp [unquote, pctDecode, utf8DecodeReplace]
  | c :: rest =>
    rw [unquote]
    rw [dif_pos (h c (List.mem_cons_self _ _))]
    rw [List.takeWhile_eq_self_iff.mpr (by intro x hx; exact h x hx)]
    rw [List.dropWhile_eq_nil_iff.mpr (by intro x hx; exact h x hx)]
    show _ ++ unquote [] = _
    simp [unquote]

/-- The pair decoding applied by `parse_qsl` inverts the pair encoding
applied by `urlencode`: for every string `s`,
`unquote(quote_plus(s).replace('+', ' ')) = s`. -/
theorem unquote_plusToSpace_quote_plus (s : Str) :
    unquote (plusToSpace (quote_plus s)) = s := by
  rw [unquote_all_ascii _ (plusToSpace_all_ascii _ (quote_plus_all_ascii s))]
  rw [pctDecode_plusToSpace_quote, utf8DecodeReplace_utf8Encode]

/-! ## Characters occurring in `quote_plus` / `urlencode` output -/

theorem quote_plus_chars (s : Str) :
    ∀ x ∈ quote_plus s, alwaysSafe x = true ∨ x = '+' ∨ x = '%' := by
  induction s with
  | nil => simp [quote_plus]
  | cons c cs ih =>
    intro x hx
    simp only [quote_plus, List.mem_append] at hx
    rcases hx with hx | hx
    · split_ifs at hx with h1 h2
      · simp only [List.mem_singleton] at hx
        subst hx
        exact Or.inl h1
      · simp only [List.mem_singleton] at hx
        subst hx
        exact Or.inr (Or.inl rfl)
      · have hlt := utf8EncodeChar_bytes_lt c
        revert hx
        generalize utf8EncodeChar c = bs at hlt
        induction bs with
        | nil => simp [pctEncBytes]
        | cons b bs ihb =>
          intro hx
          have hb : b < 256 := hlt b (List.mem_cons_self _ _)
          simp only [pctEncBytes, List.mem_cons] at hx
          rcases hx with rfl | rfl | rfl | hx
          · exact Or.inr (Or.inr rfl)
          · exact Or.inl (hexUpper_safe (b / 16) (by omega))
          · exact Or.inl (hexUpper_safe (b % 16) (by omega))
          · exact ihb (fun y hy => hlt y (List.mem_cons_of_mem _ hy)) hx
    · exact ih x hx

/-- A character that is not always-safe, not `+`, and not `%` never occurs
in `quote_plus` output. -/
theorem notin_quote_plus {c₀ : Char} (h1 : alwaysSafe c₀ = false)
    (h2 : c₀ ≠ '+') (h3 : c₀ ≠ '%') (s : Str) : c₀ ∉ quote_plus s := by
  intro hmem
  rcases quote_plus_chars s c₀ hmem with h | h | h
  · rw [h1] at h; cases h
  · exact h2 h
  · exact h3 h

theorem quote_plus_ne_nil {s : Str} (h : s ≠ []) : quote_plus s ≠ [] := by
  match s with
  | c :: cs =>
    show (if alwaysSafe c then [c]
      else if c = ' ' then ['+'] else pctEncBytes (utf8EncodeChar c)) ++ quote_plus cs ≠ []
    intro hc
    rcases List.append_eq_nil.mp hc with ⟨hl, _⟩
    split_ifs at hl with hA hB
    · have hbytes : utf8EncodeChar c ≠ [] := by
        unfold utf8EncodeChar
        split_ifs <;> simp
      have hpe : ∀ bs : List Nat, pctEncBytes bs = [] → bs = [] := by
        intro bs hbs
        cases bs with
        | nil => rfl
        | cons b bs => simp [pctEncBytes] at hbs
      exact hbytes (hpe _ hl)

/-! ## `splitOn` inverts `joinAmp` -/

theorem splitOn_no_sep {c : Char} {l : Str} (h : c ∉ l) :
    splitOn c l = [l] := by
  induction l with
  | nil => rfl
  | cons x xs ih =>
    have hx : x ≠ c := fun hx => h (hx ▸ List.mem_cons_self x xs)
    have hxs : c ∉ xs := fun hm => h (List.mem_cons_of_mem _ hm)
    simp only [splitOn, if_neg hx, ih hxs]

theorem splitOn_sep_append {c : Char} {l₁ : Str} (l₂ : Str) (h : c ∉ l₁) :
    splitOn c (l₁ ++ c :: l₂) = l₁ :: splitOn c l₂ := by
  induction l₁ with
  | nil => simp [splitOn]
  | cons x xs ih =>
    have hx : x ≠ c := fun hx => h (hx ▸ List.mem_cons_self x xs)
    have hxs : c ∉ xs := fun hm => h (List.mem_cons_of_mem _ hm)
    rw [List.cons_append]
    simp only [splitOn, if_neg hx, ih hxs]

theorem splitOn_joinAmp (pieces : List Str) (hne : pieces ≠ [])
    (h : ∀ p ∈ pieces, '&' ∉ p) :
    splitOn '&' (joinAmp pieces) = pieces := by
  match pieces with
  | [x] =>
    show splitOn '&' x = [x]
    exact splitOn_no_sep (h x (List.mem_singleton_self x))
  | x :: y :: rest =>
    show splitOn '&' (x ++ '&' :: joinAmp (y :: rest)) = _
    rw [splitOn_sep_append _ (h x (List.mem_cons_self _ _))]
    rw [splitOn_joinAmp (y :: rest) (by simp)
      (fun p hp => h p (List.mem_cons_of_mem _ hp))]

/-! ## `parse_qsl` inverts `urlencode` -/

/-- The pair stream described by a dict of str/list-of-str values. -/
def flattenD : PyDict → List (Str × Str)
  | [] => []
  | (k, QVal.s v) :: d => (k, v) :: flattenD d
  | (k, QVal.l vs) :: d => vs.map (fun v => (k, v)) ++ flattenD d

/-- A dict as `parse_qs` would render it: each value a list. -/
def toLists : PyDict → List (Str × List Str)
  | [] => []
  | (k, QVal.s v) :: d => (k, [v]) :: toLists d
  | (k, QVal.l vs) :: d => (k, vs) :: toLists d

/-- Wellformedness of the dicts arising in `ensure_english_language`:
insertion-ordered distinct keys, values nonempty strings / nonempty lists
of nonempty strings. -/
def qvalOK : QVal → Prop
  | QVal.s v => v ≠ []
  | QVal.l vs => vs ≠ [] ∧ ∀ v ∈ vs, v ≠ []

def dictWF (d : PyDict) : Prop :=
  (d.map Prod.fst).Nodup ∧ ∀ e ∈ d, qvalOK e.2

theorem eq_notin_quote_plus (s : Str) : '=' ∉ quote_plus s :=
  notin_quote_plus (by decide) (by decide) (by decide) s

theorem amp_notin_quote_plus (s : Str) : '&' ∉ quote_plus s :=
  notin_quote_plus (by decide) (by decide) (by decide) s

theorem amp_notin_encodePiece (k v : Str) : '&' ∉ encodePiece k v := by
  unfold encodePiece
  intro hmem
  rcases List.mem_append.mp hmem with h | h
  · exact amp_notin_quote_plus k h
  · rcases List.mem_cons.mp h with h | h
    · cases h
    · exact amp_notin_quote_plus v h

theorem qslStep_encodePiece (k v : Str) (hv : v ≠ [])
    (acc : List (Str × Str)) :
    qslStep (encodePiece k v) acc = (k, v) :: acc := by
  unfold qslStep encodePiece
  rw [if_neg (by
    intro hc
    rcases List.append_eq_nil.mp hc with ⟨_, h2⟩
    cases h2)]
  rw [splitOnFirst_append _ (eq_notin_quote_plus k)]
  dsimp only
  rw [if_neg (quote_plus_ne_nil hv)]
  rw [unquote_plusToSpace_quote_plus, unquote_plusToSpace_quote_plus]

/-- Every piece produced by `urlencode` is `&`-free. -/
theorem urlencodePieces_no_amp (d : PyDict) :
    ∀ p ∈ urlencodePieces d, '&' ∉ p := by
  induction d with
  | nil => simp [urlencodePieces]
  | cons e d ih =>
    intro p hp
    match e with
    | (k, QVal.s v) =>
      simp only [urlencodePieces, List.mem_cons] at hp
      rcases hp with rfl | hp
      · exact amp_notin_encodePiece k v
      · exact ih p hp
    | (k, QVal.l vs) =>
      simp only [urlencodePieces, List.mem_append] at hp
      rcases hp with hp | hp
      · obtain ⟨v, _, rfl⟩ := List.mem_map.mp hp
        exact amp_notin_encodePiece k v
      · exact ih p hp

theorem foldr_qslStep_run (k : Str) (vs : List Str)
    (acc : List (Str × Str)) (h : ∀ v ∈ vs, v ≠ []) :
    (vs.map (encodePiece k)).foldr qslStep acc =
      vs.map (fun v => (k, v)) ++ acc := by
  induction vs with
  | nil => rfl
  | cons v vs ih =>
    simp only [List.map_cons, List.foldr_cons]
    rw [ih (fun x hx => h x (List.mem_cons_of_mem _ hx)),
      qslStep_encodePiece k v (h v (List.mem_cons_self _ _))]
    rfl

theorem foldr_qslStep_pieces (d : PyDict) (h : ∀ e ∈ d, qvalOK e.2) :
    (urlencodePieces d).foldr qslStep [] = flattenD d := by
  induction d with
  | nil => rfl
  | cons e d ih =>
    have hd : ∀ e ∈ d, qvalOK e.2 := fun x hx => h x (List.mem_cons_of_mem _ hx)
    match e with
    | (k, QVal.s v) =>
      have hv : v ≠ [] := h (k, QVal.s v) (List.mem_cons_self _ _)
      show (encodePiece k v :: urlencodePieces d).foldr qslStep [] = _
      rw [List.foldr_cons, ih hd, qslStep_encodePiece k v hv]
      rfl
    | (k, QVal.l vs) =>
      have hvs : ∀ v ∈ vs, v ≠ [] :=
        (h (k, QVal.l vs) (List.mem_cons_self _ _)).2
      show (vs.map (encodePiece k) ++ urlencodePieces d).foldr qslStep [] = _
      rw [List.foldr_append, ih hd, foldr_qslStep_run k vs _ hvs]
      rfl

/-- `urlencode` output is parsed back by `parse_qsl` into exactly the
dict's pair stream (for wellformed dicts). -/
theorem parse_qsl_urlencode (d : PyDict) (h : ∀ e ∈ d, qvalOK e.2) :
    parse_qsl (urlencode d) = flattenD d := by
  unfold parse_qsl urlencode
  by_cases hnil : urlencodePieces d = []
  · rw [hnil]
    show (splitOn '&' (joinAmp [])).foldr qslStep [] = _
    have : flattenD d = [] := by
      induction d with
      | nil => rfl
      | cons e d ih =>
        match e with
        | (k, QVal.s v) => simp [urlencodePieces] at hnil
        | (k, QVal.l vs) =>
          simp only [urlencodePieces, List.append_eq_nil, List.map_eq_nil_iff] at hnil
          obtain ⟨hvs, hd⟩ := hnil
          subst hvs
          show List.map _ [] ++ flattenD d = []
          rw [List.map_nil, List.nil_append]
          exact ih (fun x hx => h x (List.mem_cons_of_mem _ hx)) hd
    rw [this]
    rfl
  · rw [splitOn_joinAmp _ hnil (urlencodePieces_no_amp d)]
    exact foldr_qslStep_pieces d h

/-! ## `groupPairs` on the pair stream of a wellformed dict -/

theorem flattenD_key_mem (d : PyDict) :
    ∀ p ∈ flattenD d, p.1 ∈ d.map Prod.fst := by
  induction d with
  | nil => simp [flattenD]
  | cons e d ih =>
    intro p hp
    match e with
    | (k, QVal.s v) =>
      simp only [flattenD, List.mem_cons] at hp
      rcases hp with rfl | hp
      · simp only [List.map_cons, List.mem_cons]
        exact Or.inl trivial
      · simp only [List.map_cons, List.mem_cons]
        exact Or.inr (ih p hp)
    | (k, QVal.l vs) =>
      simp only [flattenD, List.mem_append] at hp
      rcases hp with hp | hp
      · obtain ⟨v, _, rfl⟩ := List.mem_map.mp hp
        simp only [List.map_cons, List.mem_cons]
        exact Or.inl trivial
      · simp only [List.map_cons, List.mem_cons]
        exact Or.inr (ih p hp)

/-- Folding `groupStep` over pairs whose keys avoid a prefix of the
accumulator leaves that prefix untouched. -/
theorem foldl_groupStep_protected (ps : List (Str × Str))
    (acc₁ : List (Str × List Str)) :
    ∀ acc₂ : List (Str × List Str), (∀ p ∈ ps, p.1 ∉ acc₁.map Prod.fst) →
    ps.foldl groupStep (acc₁ ++ acc₂) = acc₁ ++ ps.foldl groupStep acc₂ := by
  induction ps with
  | nil => intro acc₂ _; rfl
  | cons p ps ih =>
    intro acc₂ h
    have hp : p.1 ∉ acc₁.map Prod.fst := h p (List.mem_cons_self _ _)
    have hstep : groupStep (acc₁ ++ acc₂) p = acc₁ ++ groupStep acc₂ p := by
      unfold groupStep
      have hany1 : acc₁.any (fun e => e.1 = p.1) = false := by
        rw [List.any_eq_false]
        intro e he
        simp only [decide_eq_true_eq]
        intro hc
        exact hp (hc ▸ List.mem_map_of_mem Prod.fst he)
      rw [List.any_append, hany1, Bool.false_or]
      by_cases hc : acc₂.any (fun e => e.1 = p.1) = true
      · rw [if_pos hc, if_pos hc, List.map_append]
        congr 1
        calc List.map (fun e => if e.1 = p.1 then (e.1, e.2 ++ [p.2]) else e) acc₁
            = List.map id acc₁ := by
              apply List.map_congr_left
              intro e he
              rw [if_neg]
              · rfl
              · intro hke
                exact hp (hke ▸ List.mem_map_of_mem Prod.fst he)
          _ = acc₁ := List.map_id acc₁
      · rw [if_neg hc, if_neg hc, List.append_assoc]
    rw [List.foldl_cons, List.foldl_cons, hstep]
    exact ih _ (fun q hq => h q (List.mem_cons_of_mem _ hq))

theorem foldl_groupStep_protected' (ps : List (Str × Str))
    (acc₁ : List (Str × List Str)) (h : ∀ p ∈ ps, p.1 ∉ acc₁.map Prod.fst) :
    ps.foldl groupStep acc₁ = acc₁ ++ ps.foldl groupStep [] := by
  have hx := foldl_groupStep_protected ps acc₁ [] h
  rw [List.append_nil] at hx
  exact hx

/-- Folding one key's run into a single-entry accumulator appends its
values. -/
theorem foldl_groupStep_run (k : Str) (vs : List Str) :
    ∀ w : List Str,
      (vs.map (fun v => (k, v))).foldl groupStep [(k, w)] = [(k, w ++ vs)] := by
  induction vs with
  | nil => intro w; simp
  | cons v vs ih =>
    intro w
    have hstep : groupStep [(k, w)] (k, v) = [(k, w ++ [v])] := by
      unfold groupStep
      rw [if_pos (by simp)]
      simp
    simp only [List.map_cons, List.foldl_cons, hstep]
    rw [ih (w ++ [v])]
    simp

/-- Grouping the pair stream of a wellformed dict reproduces the dict,
with every value rendered as a list. -/
theorem groupPairs_flattenD (d : PyDict)
    (hnodup : (d.map Prod.fst).Nodup) (hvals : ∀ e ∈ d, qvalOK e.2) :
    groupPairs (flattenD d) = toLists d := by
  induction d with
  | nil => rfl
  | cons e d ih =>
    have hnd : (d.map Prod.fst).Nodup := (List.nodup_cons.mp hnodup).2
    have hke : e.1 ∉ d.map Prod.fst := (List.nodup_cons.mp hnodup).1
    have hd := ih hnd (fun x hx => hvals x (List.mem_cons_of_mem _ hx))
    match e with
    | (k, QVal.s v) =>
      show (flattenD ((k, QVal.s v) :: d)).foldl groupStep [] = _
      have hkd : k ∉ d.map Prod.fst := hke
      show ((k, v) :: flattenD d).foldl groupStep [] = _
      rw [List.foldl_cons]
      have hstep0 : groupStep [] (k, v) = [(k, [v])] := by
        unfold groupStep
        rw [if_neg (by simp)]
        rfl
      rw [hstep0]
      rw [foldl_groupStep_protected' (flattenD d) [(k, [v])]
        (by
          intro p hp
          simp only [List.map_cons, List.map_nil, List.mem_singleton]
          intro hc
          exact hkd (hc ▸ flattenD_key_mem d p hp))]
      rw [show (flattenD d).foldl groupStep [] = groupPairs (flattenD d) from rfl, hd]
      rfl
    | (k, QVal.l vs) =>
      have hkd : k ∉ d.map Prod.fst := hke
      have hvs := hvals (k, QVal.l vs) (List.mem_cons_self _ _)
      obtain ⟨hvs1, _⟩ := hvs
      show (vs.map (fun v => (k, v)) ++ flattenD d).foldl groupStep [] = _
      rw [List.foldl_append]
      match vs, hvs1 with
      | v :: vs', _ =>
        rw [List.map_cons, List.foldl_cons]
        have hstep0 : groupStep [] (k, v) = [(k, [v])] := by
          unfold groupStep
          rw [if_neg (by simp)]
          rfl
        rw [hstep0, foldl_groupStep_run k vs' [v]]
        rw [foldl_groupStep_protected' (flattenD d) [(k, [v] ++ vs')]
          (by
            intro p hp
            simp only [List.map_cons, List.map_nil, List.mem_singleton]
            intro hc
            exact hkd (hc ▸ flattenD_key_mem d p hp))]
        rw [show (flattenD d).foldl groupStep [] = groupPairs (flattenD d) from rfl, hd]
        rfl

/-- `parse_qs` inverts `urlencode` on wellformed dicts. -/
theorem parse_qs_urlencode (d : PyDict) (hnodup : (d.map Prod.fst).Nodup)
    (hvals : ∀ e ∈ d, qvalOK e.2) :
    parse_qs (urlencode d) = toLists d := by
  unfold parse_qs
  rw [parse_qsl_urlencode d hvals]
  exact groupPairs_flattenD d hnodup hvals

/-! ## Nonemptiness facts -/

theorem pctDecode_ne_nil {l : Str} (h : l ≠ []) : pctDecode l ≠ [] := by
  match l with
  | c :: rest =>
    rw [pctDecode.eq_def]
    dsimp only
    by_cases hc : c = '%'
    · rw [if_pos hc]
      match rest with
      | [] => simp
      | [h1] => simp
      | h1 :: h2 :: rest2 =>
        rcases hh1 : hexVal? h1 with _ | a <;>
          rcases hh2 : hexVal? h2 with _ | b <;>
          simp [hh1, hh2]
    · rw [if_neg hc]
      simp

theorem utf8DecodeReplace_ne_nil {bs : List Nat} (h : bs ≠ []) :
    utf8DecodeReplace bs ≠ [] := by
  match bs with
  | b :: rest =>
    rw [utf8DecodeReplace.eq_def]
    dsimp only
    repeat' split
    all_goals simp

theorem takeWhile_cons_ne_nil {p : Char → Bool} {c : Char} (rest : Str)
    (h : p c = true) : (c :: rest).takeWhile p ≠ [] := by
  rw [List.takeWhile_cons, if_pos h]
  simp

theorem unquote_ne_nil {s : Str} (h : s ≠ []) : unquote s ≠ [] := by
  match s with
  | c :: rest =>
    rw [unquote.eq_def]
    dsimp only
    by_cases hc : isAsciiCh c
    · rw [dif_pos hc]
      intro hcon
      rcases List.append_eq_nil.mp hcon with ⟨h1, _⟩
      exact utf8DecodeReplace_ne_nil
        (pctDecode_ne_nil (takeWhile_cons_ne_nil rest hc)) h1
    · rw [dif_neg hc]
      simp

theorem plusToSpace_ne_nil {s : Str} (h : s ≠ []) : plusToSpace s ≠ [] := by
  unfold plusToSpace
  simpa using h

/-! ## Wellformedness of `parse_qs` output -/

theorem qslStep_vals (piece : Str) (acc : List (Str × Str))
    (hacc : ∀ p ∈ acc, p.2 ≠ []) : ∀ p ∈ qslStep piece acc, p.2 ≠ [] := by
  unfold qslStep
  intro p hp
  split_ifs at hp with h1
  · exact hacc p hp
  · cases hsp : splitOnFirst '=' piece with
    | none => rw [hsp] at hp; exact hacc p hp
    | some nv =>
      obtain ⟨n, v⟩ := nv
      rw [hsp] at hp
      dsimp only at hp
      by_cases hv : v = []
      · rw [if_pos hv] at hp; exact hacc p hp
      · rw [if_neg hv] at hp
        rcases List.mem_cons.mp hp with rfl | hp
        · exact unquote_ne_nil (plusToSpace_ne_nil hv)
        · exact hacc p hp

theorem parse_qsl_vals (qs : Str) : ∀ p ∈ parse_qsl qs, p.2 ≠ [] := by
  unfold parse_qsl
  generalize splitOn '&' qs = pieces
  induction pieces with
  | nil => simp
  | cons piece pieces ih =>
    rw [List.foldr_cons]
    exact qslStep_vals piece _ ih

/-- The key set is unchanged by the update branch of `groupStep`. -/
theorem groupStep_keys (acc : List (Str × List Str)) (p : Str × Str) :
    (groupStep acc p).map Prod.fst =
      if acc.any (fun e => e.1 = p.1) then acc.map Prod.fst
      else acc.map Prod.fst ++ [p.1] := by
  unfold groupStep
  by_cases hc : acc.any (fun e => e.1 = p.1) = true
  · rw [if_pos hc, if_pos hc, List.map_map]
    apply List.map_congr_left
    intro e _
    by_cases he : e.1 = p.1 <;> simp [he]
  · rw [if_neg hc, if_neg hc]
    simp

/-- Invariant of the grouping fold: distinct keys, nonempty groups of
nonempty values. -/
def accOK (acc : List (Str × List Str)) : Prop :=
  (acc.map Prod.fst).Nodup ∧ ∀ e ∈ acc, e.2 ≠ [] ∧ ∀ v ∈ e.2, v ≠ []

theorem groupStep_accOK {acc : List (Str × List Str)} {p : Str × Str}
    (hacc : accOK acc) (hp : p.2 ≠ []) : accOK (groupStep acc p) := by
  obtain ⟨hnd, hvals⟩ := hacc
  constructor
  · rw [groupStep_keys]
    by_cases hc : acc.any (fun e => e.1 = p.1) = true
    · rw [if_pos hc]; exact hnd
    · rw [if_neg hc]
      rw [List.nodup_append]
      refine ⟨hnd, List.nodup_singleton _, ?_⟩
      intro a ha hb
      simp only [List.mem_singleton] at hb
      subst hb
      rw [Bool.not_eq_true, List.any_eq_false] at hc
      · obtain ⟨e, he, hfst⟩ := List.mem_map.mp ha
        have := hc e he
        simp only [decide_eq_true_eq] at this
        exact this hfst
  · intro e he
    unfold groupStep at he
    split_ifs at he with hc
    · obtain ⟨e', he', hupd⟩ := List.mem_map.mp he
      by_cases hk : e'.1 = p.1
      · rw [if_pos hk] at hupd
        obtain ⟨h1, h2⟩ := hvals e' he'
        refine ⟨?_, ?_⟩
        · rw [← hupd]
          simp
        · rw [← hupd]
          intro v hv
          simp only [List.mem_append, List.mem_singleton] at hv
          rcases hv with hv | rfl
          · exact h2 v hv
          · exact hp
      · rw [if_neg hk] at hupd
        rw [← hupd]
        exact hvals e' he'
    · rcases List.mem_append.mp he with he | he
      · exact hvals e he
      · simp only [List.mem_singleton] at he
        subst he
        exact ⟨by simp, by simpa using hp⟩

theorem foldl_groupStep_accOK (ps : List (Str × Str))
    (hvals : ∀ p ∈ ps, p.2 ≠ []) :
    ∀ acc, accOK acc → accOK (ps.foldl groupStep acc) := by
  induction ps with
  | nil => intro acc h; exact h
  | cons p ps ih =>
    intro acc h
    rw [List.foldl_cons]
    exact ih (fun q hq => hvals q (List.mem_cons_of_mem _ hq)) _
      (groupStep_accOK h (hvals p (List.mem_cons_self _ _)))

theorem parse_qs_accOK (qs : Str) : accOK (parse_qs qs) :=
  foldl_groupStep_accOK _ (parse_qsl_vals qs) [] ⟨List.nodup_nil, by simp⟩

/-! ## Dict lemmas -/

/-- The PyDict with every value re-wrapped as a list value, as
`ensure_english_language` builds it from `parse_qs` output. -/
def toQ (ps : List (Str × List Str)) : PyDict :=
  ps.map fun e => (e.1, QVal.l e.2)

theorem toQ_keys (ps : List (Str × List Str)) :
    (toQ ps).map Prod.fst = ps.map Prod.fst := by
  unfold toQ
  rw [List.map_map]
  rfl

theorem toLists_toQ (ps : List (Str × List Str)) : toLists (toQ ps) = ps := by
  induction ps with
  | nil => rfl
  | cons e ps ih =>
    show toLists ((e.1, QVal.l e.2) :: toQ ps) = e :: ps
    show (e.1, e.2) :: toLists (toQ ps) = e :: ps
    rw [ih]

theorem toQ_vals (ps : List (Str × List Str))
    (h : ∀ e ∈ ps, e.2 ≠ [] ∧ ∀ v ∈ e.2, v ≠ []) :
    ∀ e ∈ toQ ps, qvalOK e.2 := by
  intro e he
  obtain ⟨e', he', rfl⟩ := List.mem_map.mp he
  exact h e' he'

theorem dictSet_keys_nodup {d : PyDict} (h : (d.map Prod.fst).Nodup)
    (k : Str) (v : QVal) : ((dictSet d k v).map Prod.fst).Nodup := by
  unfold dictSet
  split_ifs with hc
  · rw [List.map_map]
    have : (Prod.fst ∘ fun e => if e.1 = k then (e.1, v) else e) =
        (Prod.fst : Str × QVal → Str) := by
      funext e
      by_cases he : e.1 = k <;> simp [he]
    rw [this]
    exact h
  · rw [List.map_append]
    rw [List.nodup_append]
    refine ⟨h, List.nodup_singleton _, ?_⟩
    intro a ha hb
    simp only [List.map_cons, List.map_nil, List.mem_singleton] at hb
    subst hb
    rw [Bool.not_eq_true, List.any_eq_false] at hc
    obtain ⟨e, he, hfst⟩ := List.mem_map.mp ha
    have := hc e he
    simp only [decide_eq_true_eq] at this
    exact this hfst

theorem dictSet_vals {d : PyDict} (h : ∀ e ∈ d, qvalOK e.2) {v : QVal}
    (hv : qvalOK v) (k : Str) : ∀ e ∈ dictSet d k v, qvalOK e.2 := by
  unfold dictSet
  intro e he
  split_ifs at he with hc
  · obtain ⟨e', he', hupd⟩ := List.mem_map.mp he
    by_cases hk : e'.1 = k
    · rw [if_pos hk] at hupd
      rw [← hupd]
      exact hv
    · rw [if_neg hk] at hupd
      rw [← hupd]
      exact h e' he'
  · rcases List.mem_append.mp he with he | he
    · exact h e he
    · simp only [List.mem_singleton] at he
      subst he
      exact hv

theorem dictSet_mem (d : PyDict) (k : Str) (v : QVal) :
    (k, v) ∈ dictSet d k v := by
  unfold dictSet
  split_ifs with hc
  · rw [List.any_eq_true] at hc
    obtain ⟨e, he, hfst⟩ := hc
    simp only [decide_eq_true_eq] at hfst
    have : (k, v) = (if e.1 = k then (e.1, v) else e) := by
      rw [if_pos hfst, hfst]
    rw [this]
    exact List.mem_map_of_mem _ he
  · exact List.mem_append.mpr (Or.inr (List.mem_singleton_self _))

/-! ## Entry-level facts about `dictSet` -/

/-- Every entry of `dictSet d k₀ v₀` carrying the key `k₀` is exactly
`(k₀, v₀)`. -/
theorem dictSet_key_entries (d : PyDict) (k₀ : Str) (v₀ : QVal) :
    ∀ e ∈ dictSet d k₀ v₀, e.1 = k₀ → e = (k₀, v₀) := by
  unfold dictSet
  intro e he hk
  split_ifs at he with hc
  · obtain ⟨e', he', hupd⟩ := List.mem_map.mp he
    by_cases hk' : e'.1 = k₀
    · rw [if_pos hk'] at hupd
      rw [← hupd, hk']
    · rw [if_neg hk'] at hupd
      rw [← hupd] at hk
      exact absurd hk hk'
  · rcases List.mem_append.mp he with he | he
    · exfalso
      rw [Bool.not_eq_true, List.any_eq_false] at hc
      have := hc e he
      simp only [decide_eq_true_eq] at this
      exact this hk
    · simp only [List.mem_singleton] at he
      exact he

/-- Every entry of `dictSet d k₀ v₀` carrying another key comes unchanged
from `d`. -/
theorem dictSet_other_entries (d : PyDict) (k₀ : Str) (v₀ : QVal) :
    ∀ e ∈ dictSet d k₀ v₀, e.1 ≠ k₀ → e ∈ d := by
  unfold dictSet
  intro e he hk
  split_ifs at he with hc
  · obtain ⟨e', he', hupd⟩ := List.mem_map.mp he
    by_cases hk' : e'.1 = k₀
    · rw [if_pos hk'] at hupd
      rw [← hupd] at hk
      exact absurd hk' hk
    · rw [if_neg hk'] at hupd
      rw [← hupd]
      exact he'
  · rcases List.mem_append.mp he with he | he
    · exact he
    · simp only [List.mem_singleton] at he
      rw [he] at hk
      exact absurd rfl hk

/-- How a value is rendered as a list by `parse_qs` round-tripping. -/
def listify : QVal → List Str
  | QVal.s v => [v]
  | QVal.l vs => vs

theorem toLists_cons (e : Str × QVal) (d : PyDict) :
    toLists (e :: d) = (e.1, listify e.2) :: toLists d := by
  obtain ⟨k, val⟩ := e
  cases val <;> rfl

theorem toQ_toLists_entry (d : PyDict) :
    toQ (toLists d) = d.map (fun e => (e.1, QVal.l (listify e.2))) := by
  induction d with
  | nil => rfl
  | cons e d ih =>
    rw [toLists_cons]
    show (e.1, QVal.l (listify e.2)) :: toQ (toLists d) = _
    rw [ih]
    rfl

/-- Re-parsing the encoded dict and overwriting `hl` again reproduces the
dict: the algebraic heart of idempotence. -/
theorem dictSet_requery (d : PyDict) (k₀ v₀ : Str)
    (hl : ∀ e ∈ d, ∃ vs, e.2 = QVal.l vs) :
    dictSet (toQ (toLists (dictSet d k₀ (QVal.s v₀)))) k₀ (QVal.s v₀)
      = dictSet d k₀ (QVal.s v₀) := by
  set D := dictSet d k₀ (QVal.s v₀) with hD
  rw [toQ_toLists_entry]
  have hmem : (k₀, QVal.s v₀) ∈ D := dictSet_mem d k₀ (QVal.s v₀)
  have hany : (D.map (fun e => (e.1, QVal.l (listify e.2)))).any
      (fun e => e.1 = k₀) = true := by
    rw [List.any_eq_true]
    refine ⟨(k₀, QVal.l (listify (QVal.s v₀))), List.mem_map_of_mem _ hmem, ?_⟩
    simp
  unfold dictSet
  rw [if_pos hany, List.map_map]
  calc D.map ((fun e => if e.1 = k₀ then (e.1, QVal.s v₀) else e) ∘
        (fun e => (e.1, QVal.l (listify e.2))))
      = D.map id := by
        apply List.map_congr_left
        intro e he
        simp only [Function.comp_apply, id_eq]
        by_cases hk : e.1 = k₀
        · rw [if_pos hk]
          have := dictSet_key_entries d k₀ (QVal.s v₀) e (hD ▸ he) hk
          rw [this]
        · rw [if_neg hk]
          have he' := dictSet_other_entries d k₀ (QVal.s v₀) e (hD ▸ he) hk
          obtain ⟨vs, hvs⟩ := hl e he'
          show (e.1, QVal.l (listify e.2)) = e
          have hlist : QVal.l (listify e.2) = e.2 := by rw [hvs]; rfl
          rw [hlist]
    _ = D := List.map_id D

/-! ## Lookup of a non-updated key -/

/-- Dict lookup in the `parse_qs` rendering of a query. -/
def qsLookup (k : Str) : List (Str × List Str) → Option (List Str)
  | [] => none
  | e :: d => if e.1 = k then some e.2 else qsLookup k d

theorem toLists_append (d₁ d₂ : PyDict) :
    toLists (d₁ ++ d₂) = toLists d₁ ++ toLists d₂ := by
  induction d₁ with
  | nil => rfl
  | cons e d ih =>
    rw [List.cons_append, toLists_cons, toLists_cons, ih, List.cons_append]

theorem qsLookup_append_other {k k₀ : Str} (hk : k ≠ k₀)
    (xs : List (Str × List Str)) (w : List Str) :
    qsLookup k (xs ++ [(k₀, w)]) = qsLookup k xs := by
  induction xs with
  | nil =>
    show qsLookup k [(k₀, w)] = none
    unfold qsLookup
    rw [if_neg (fun hc => hk hc.symm)]
    rfl
  | cons e xs ih =>
    rw [List.cons_append]
    show qsLookup k (e :: (xs ++ [(k₀, w)])) = qsLookup k (e :: xs)
    unfold qsLookup
    by_cases he : e.1 = k
    · rw [if_pos he, if_pos he]
    · rw [if_neg he, if_neg he]
      exact ih

/-- Updating key `k₀` of a dict does not change the looked-up value of any
other key (whichever way the dict is rendered). -/
theorem qsLookup_toLists_dictSet {k k₀ : Str} (hk : k ≠ k₀)
    (Q : PyDict) (v₀ : QVal) :
    qsLookup k (toLists (dictSet Q k₀ v₀)) = qsLookup k (toLists Q) := by
  unfold dictSet
  split_ifs with hc
  · clear hc
    induction Q with
    | nil => rfl
    | cons e Q ih =>
      rw [List.map_cons, toLists_cons, toLists_cons]
      unfold qsLookup
      by_cases hek : e.1 = k₀
      · have hne : ¬ e.1 = k := fun hc' => hk (by rw [← hc', hek])
        rw [if_pos hek]
        rw [if_neg (show ¬ ((e.1, v₀) : Str × QVal).1 = k from hne),
          if_neg hne]
        exact ih
      · rw [if_neg hek]
        by_cases he : e.1 = k
        · rw [if_pos he, if_pos he]
        · rw [if_neg he, if_neg he]
          exact ih
  · rw [toLists_append, toLists_cons]
    show qsLookup k (toLists Q ++ [(k₀, listify v₀)]) = _
    exact qsLookup_append_other hk (toLists Q) (listify v₀)

/-! ## Characters and nonemptiness of `urlencode` output -/

theorem encodePiece_chars (k v : Str) :
    ∀ x ∈ encodePiece k v,
      alwaysSafe x = true ∨ x = '+' ∨ x = '%' ∨ x = '=' := by
  intro x hx
  unfold encodePiece at hx
  rcases List.mem_append.mp hx with h | h
  · rcases quote_plus_chars k x h with h | h | h
    · exact Or.inl h
    · exact Or.inr (Or.inl h)
    · exact Or.inr (Or.inr (Or.inl h))
  · rcases List.mem_cons.mp h with h | h
    · exact Or.inr (Or.inr (Or.inr h))
    · rcases quote_plus_chars v x h with h | h | h
      · exact Or.inl h
      · exact Or.inr (Or.inl h)
      · exact Or.inr (Or.inr (Or.inl h))

theorem joinAmp_chars (pieces : List Str) :
    ∀ x ∈ joinAmp pieces, x = '&' ∨ ∃ p ∈ pieces, x ∈ p := by
  match pieces with
  | [] => simp [joinAmp]
  | [p] =>
    intro x hx
    exact Or.inr ⟨p, List.mem_singleton_self p, hx⟩
  | p :: q :: rest =>
    intro x hx
    show x = '&' ∨ ∃ p' ∈ p :: q :: rest, x ∈ p'
    rcases List.mem_append.mp hx with h | h
    · exact Or.inr ⟨p, List.mem_cons_self _ _, h⟩
    · rcases List.mem_cons.mp h with rfl | h
      · exact Or.inl rfl
      · rcases joinAmp_chars (q :: rest) x h with h | ⟨p', hp', hx'⟩
        · exact Or.inl h
        · exact Or.inr ⟨p', List.mem_cons_of_mem _ hp', hx'⟩

theorem urlencodePieces_chars (d : PyDict) :
    ∀ p ∈ urlencodePieces d, ∀ x ∈ p,
      alwaysSafe x = true ∨ x = '+' ∨ x = '%' ∨ x = '=' := by
  induction d with
  | nil => simp [urlencodePieces]
  | cons e d ih =>
    intro p hp
    match e with
    | (k, QVal.s v) =>
      rcases List.mem_cons.mp hp with rfl | hp
      · exact encodePiece_chars k v
      · exact ih p hp
    | (k, QVal.l vs) =>
      rcases List.mem_append.mp hp with hp | hp
      · obtain ⟨v, _, rfl⟩ := List.mem_map.mp hp
        exact encodePiece_chars k v
      · exact ih p hp

theorem urlencode_chars (d : PyDict) :
    ∀ x ∈ urlencode d,
      alwaysSafe x = true ∨ x = '+' ∨ x = '%' ∨ x = '=' ∨ x = '&' := by
  intro x hx
  unfold urlencode at hx
  rcases joinAmp_chars _ x hx with h | ⟨p, hp, hx'⟩
  · exact Or.inr (Or.inr (Or.inr (Or.inr h)))
  · rcases urlencodePieces_chars d p hp x hx' with h | h | h | h
    · exact Or.inl h
    · exact Or.inr (Or.inl h)
    · exact Or.inr (Or.inr (Or.inl h))
    · exact Or.inr (Or.inr (Or.inr (Or.inl h)))

/-- A character that is neither always-safe nor one of `+ % = &` never
occurs in `urlencode` output. -/
theorem notin_urlencode {c₀ : Char} (h1 : alwaysSafe c₀ = false)
    (h2 : c₀ ≠ '+') (h3 : c₀ ≠ '%') (h4 : c₀ ≠ '=') (h5 : c₀ ≠ '&')
    (d : PyDict) : c₀ ∉ urlencode d := by
  intro hmem
  rcases urlencode_chars d c₀ hmem with h | h | h | h | h
  · rw [h1] at h; cases h
  · exact h2 h
  · exact h3 h
  · exact h4 h
  · exact h5 h

theorem encodePiece_ne_nil (k v : Str) : encodePiece k v ≠ [] := by
  unfold encodePiece
  intro hc
  rcases List.append_eq_nil.mp hc with ⟨_, h2⟩
  cases h2

theorem urlencodePieces_all_ne_nil (d : PyDict) :
    ∀ p ∈ urlencodePieces d, p ≠ [] := by
  induction d with
  | nil => simp [urlencodePieces]
  | cons e d ih =>
    intro p hp
    match e with
    | (k, QVal.s v) =>
      rcases List.mem_cons.mp hp with rfl | hp
      · exact encodePiece_ne_nil k v
      · exact ih p hp
    | (k, QVal.l vs) =>
      rcases List.mem_append.mp hp with hp | hp
      · obtain ⟨v, _, rfl⟩ := List.mem_map.mp hp
        exact encodePiece_ne_nil k v
      · exact ih p hp

theorem urlencodePieces_ne_nil_of_sMem {d : PyDict} {k v : Str}
    (h : (k, QVal.s v) ∈ d) : urlencodePieces d ≠ [] := by
  induction d with
  | nil => cases h
  | cons e d ih =>
    match e with
    | (k', QVal.s v') =>
      show encodePiece k' v' :: urlencodePieces d ≠ []
      simp
    | (k', QVal.l vs') =>
      show vs'.map (encodePiece k') ++ urlencodePieces d ≠ []
      rcases List.mem_cons.mp h with hh | hh
      · cases hh
      · intro hc
        exact ih hh (List.append_eq_nil.mp hc).2

theorem joinAmp_ne_nil {pieces : List Str} (hne : pieces ≠ [])
    (h : ∀ p ∈ pieces, p ≠ []) : joinAmp pieces ≠ [] := by
  match pieces with
  | [p] => exact h p (List.mem_singleton_self p)
  | p :: q :: rest =>
    show p ++ '&' :: joinAmp (q :: rest) ≠ []
    intro hc
    cases (List.append_eq_nil.mp hc).2

theorem urlencode_ne_nil_of_sMem {d : PyDict} {k v : Str}
    (h : (k, QVal.s v) ∈ d) : urlencode d ≠ [] :=
  joinAmp_ne_nil (urlencodePieces_ne_nil_of_sMem h)
    (urlencodePieces_all_ne_nil d)

/-! ## Raw query parameters (for stating claims about the query string) -/

/-- The raw (still percent-encoded) `key=value` pieces of a query string:
its `&`-separated nonempty chunks. -/
def rawParams (qs : Str) : List Str :=
  (splitOn '&' qs).filter (fun p => p ≠ [])

/-- The raw key of one `key=value` piece. -/
def rawKey (p : Str) : Str :=
  match splitOnFirst '=' p with
  | none => p
  | some (n, _) => n

theorem rawParams_urlencode (d : PyDict) (hne : urlencodePieces d ≠ []) :
    rawParams (urlencode d) = urlencodePieces d := by
  unfold rawParams urlencode
  rw [splitOn_joinAmp _ hne (urlencodePieces_no_amp d)]
  apply List.filter_eq_self.mpr
  intro p hp
  simpa using urlencodePieces_all_ne_nil d p hp

theorem rawKey_encodePiece (k v : Str) :
    rawKey (encodePiece k v) = quote_plus k := by
  unfold rawKey encodePiece
  rw [splitOnFirst_append _ (eq_notin_quote_plus k)]

theorem quote_plus_inj {a b : Str} (h : quote_plus a = quote_plus b) :
    a = b := by
  have := unquote_plusToSpace_quote_plus a
  rw [h, unquote_plusToSpace_quote_plus b] at this
  exact this.symm

/-- Among the pieces of a dict without key `k₀`, none has raw key
`quote_plus k₀`. -/
theorem pieces_filter_key_none (d : PyDict) (k₀ : Str)
    (habs : k₀ ∉ d.map Prod.fst) :
    (urlencodePieces d).filter (fun p => rawKey p = quote_plus k₀) = [] := by
  induction d with
  | nil => rfl
  | cons e d ih =>
    have hk : e.1 ≠ k₀ := by
      intro hc
      exact habs (hc ▸ List.mem_map_of_mem Prod.fst (List.mem_cons_self _ _))
    have habs' : k₀ ∉ d.map Prod.fst := by
      intro hc
      exact habs (List.mem_cons_of_mem _ hc)
    match e with
    | (k, QVal.s v) =>
      show (encodePiece k v :: urlencodePieces d).filter _ = []
      rw [List.filter_cons]
      rw [if_neg (by
        simp only [rawKey_encodePiece, decide_eq_true_eq]
        intro hc
        exact hk (quote_plus_inj hc))]
      exact ih habs'
    | (k, QVal.l vs) =>
      show (vs.map (encodePiece k) ++ urlencodePieces d).filter _ = []
      rw [List.filter_append, ih habs', List.append_nil]
      apply List.filter_eq_nil_iff.mpr
      intro p hp
      obtain ⟨v, _, rfl⟩ := List.mem_map.mp hp
      simp only [rawKey_encodePiece, decide_eq_true_eq]
      intro hc
      exact hk (quote_plus_inj hc)

/-- For a dict with distinct keys in which key `k₀` maps to the string
value `v₀`, exactly one raw piece carries the key — `k₀=v₀` encoded. -/
theorem pieces_filter_key (d : PyDict) (k₀ v₀ : Str)
    (hnodup : (d.map Prod.fst).Nodup)
    (hmem : (k₀, QVal.s v₀) ∈ d) :
    (urlencodePieces d).filter (fun p => rawKey p = quote_plus k₀) =
      [encodePiece k₀ v₀] := by
  induction d with
  | nil => cases hmem
  | cons e d ih =>
    have hnd : (d.map Prod.fst).Nodup := (List.nodup_cons.mp hnodup).2
    have hke : e.1 ∉ d.map Prod.fst := (List.nodup_cons.mp hnodup).1
    rcases List.mem_cons.mp hmem with rfl | hmem'
    · show (encodePiece k₀ v₀ :: urlencodePieces d).filter _ = _
      rw [List.filter_cons, if_pos (by simp [rawKey_encodePiece])]
      rw [pieces_filter_key_none d k₀ hke]
    · have hk : e.1 ≠ k₀ := by
        intro hc
        exact hke (hc ▸ List.mem_map_of_mem Prod.fst hmem')
      match e with
      | (k, QVal.s v) =>
        show (encodePiece k v :: urlencodePieces d).filter _ = _
        rw [List.filter_cons, if_neg (by
          simp only [rawKey_encodePiece, decide_eq_true_eq]
          intro hc
          exact hk (quote_plus_inj hc))]
        exact ih hnd hmem'
      | (k, QVal.l vs) =>
        show (vs.map (encodePiece k) ++ urlencodePieces d).filter _ = _
        rw [List.filter_append, ih hnd hmem']
        rw [show (vs.map (encodePiece k)).filter
            (fun p => rawKey p = quote_plus k₀) = [] from ?_]
        · rfl
        · apply List.filter_eq_nil_iff.mpr
          intro p hp
          obtain ⟨v, _, rfl⟩ := List.mem_map.mp hp
          simp only [rawKey_encodePiece, decide_eq_true_eq]
          intro hc
          exact hk (quote_plus_inj hc)

/-! ## Character classes of the URL grammar, as code-point ranges -/

theorem isSchemeChar_iff (c : Char) : isSchemeChar c = true ↔
    ((97 ≤ c.toNat ∧ c.toNat ≤ 122) ∨ (65 ≤ c.toNat ∧ c.toNat ≤ 90) ∨
      (48 ≤ c.toNat ∧ c.toNat ≤ 57) ∨ c.toNat = 43 ∨ c.toNat = 45 ∨
      c.toNat = 46) := by
  unfold isSchemeChar
  simp only [decide_eq_true_eq, charLe_iff, charEq_iff]
  simp

theorem asciiAlpha_iff (c : Char) : asciiAlpha c = true ↔
    ((97 ≤ c.toNat ∧ c.toNat ≤ 122) ∨ (65 ≤ c.toNat ∧ c.toNat ≤ 90)) := by
  unfold asciiAlpha
  simp only [decide_eq_true_eq, charLe_iff, charEq_iff]
  simp

theorem isNetlocDelim_iff (c : Char) : isNetlocDelim c = true ↔
    (c.toNat = 47 ∨ c.toNat = 63 ∨ c.toNat = 35) := by
  unfold isNetlocDelim
  simp only [decide_eq_true_eq, charEq_iff]
  simp

theorem isTabNl_iff (c : Char) : isTabNl c = true ↔
    (c.toNat = 9 ∨ c.toNat = 13 ∨ c.toNat = 10) := by
  unfold isTabNl
  simp only [decide_eq_true_eq, charEq_iff]
  simp

theorem c0OrSpace_iff (c : Char) : c0OrSpace c = true ↔ c.toNat ≤ 32 := by
  unfold c0OrSpace
  simp

theorem charEq_toNat {c d : Char} (h : c.toNat = d.toNat) : c = d :=
  (charEq_iff c d).mpr h

theorem asciiLower_toNat (c : Char) : (asciiLower c).toNat =
    if 65 ≤ c.toNat ∧ c.toNat ≤ 90 then c.toNat + 32 else c.toNat := by
  unfold asciiLower
  by_cases h : 'A' ≤ c ∧ c ≤ 'Z'
  · rw [if_pos h]
    have h' : 65 ≤ c.toNat ∧ c.toNat ≤ 90 := by
      obtain ⟨h1, h2⟩ := h
      rw [charLe_iff] at h1 h2
      constructor
      · have : ('A').toNat = 65 := by simp
        omega
      · have : ('Z').toNat = 90 := by simp
        omega
    rw [if_pos h', charOfNat_toNat (by left; omega)]
  · rw [if_neg h]
    rw [if_neg]
    intro hc
    apply h
    constructor
    · rw [charLe_iff]
      have : ('A').toNat = 65 := by simp
      omega
    · rw [charLe_iff]
      have : ('Z').toNat = 90 := by simp
      omega

theorem asciiLower_idem (c : Char) : asciiLower (asciiLower c) = asciiLower c := by
  apply charEq_toNat
  rw [asciiLower_toNat, asciiLower_toNat]
  split_ifs <;> omega

theorem isSchemeChar_asciiLower (c : Char) :
    isSchemeChar (asciiLower c) = isSchemeChar c := by
  by_cases h : isSchemeChar c = true
  · rw [h]
    rw [isSchemeChar_iff] at h ⊢
    rw [asciiLower_toNat]
    split_ifs with hr <;> omega
  · rw [Bool.not_eq_true] at h
    rw [h]
    rw [Bool.eq_false_iff, Ne, isSchemeChar_iff] at h ⊢
    rw [asciiLower_toNat]
    intro hc
    apply h
    split_ifs at hc <;> omega

theorem asciiAlpha_asciiLower (c : Char) :
    asciiAlpha (asciiLower c) = asciiAlpha c := by
  by_cases h : asciiAlpha c = true
  · rw [h]
    rw [asciiAlpha_iff] at h ⊢
    rw [asciiLower_toNat]
    split_ifs with hr <;> omega
  · rw [Bool.not_eq_true] at h
    rw [h]
    rw [Bool.eq_false_iff, Ne, asciiAlpha_iff] at h ⊢
    rw [asciiLower_toNat]
    intro hc
    apply h
    split_ifs at hc <;> omega

theorem asciiLower_fixed_of_schemeChar {c : Char}
    (hlow : ¬(65 ≤ c.toNat ∧ c.toNat ≤ 90)) : asciiLower c = c := by
  apply charEq_toNat
  rw [asciiLower_toNat, if_neg hlow]

theorem asciiLower_map_idem (l : Str) :
    (l.map asciiLower).map asciiLower = l.map asciiLower := by
  rw [List.map_map]
  apply List.map_congr_left
  intro c _
  exact asciiLower_idem c

theorem colon_notin_asciiLower_scheme {l : Str}
    (h : ∀ c ∈ l, isSchemeChar c = true) : ':' ∉ l.map asciiLower := by
  intro hc
  obtain ⟨c, hcl, hlc⟩ := List.mem_map.mp hc
  have h1 := h c hcl
  rw [isSchemeChar_iff] at h1
  have h2 : (asciiLower c).toNat = (':').toNat := by rw [hlc]
  rw [asciiLower_toNat] at h2
  have h3 : (':').toNat = 58 := by simp
  rw [h3] at h2
  split_ifs at h2 <;> omega

theorem schemeOk_map_asciiLower {a : Str} (h : schemeOk a = true) :
    schemeOk (a.map asciiLower) = true := by
  match a with
  | c :: rest =>
    unfold schemeOk at h ⊢
    simp only [List.map_cons]
    simp only [decide_eq_true_eq] at h ⊢
    obtain ⟨h1, h2⟩ := h
    constructor
    · rw [asciiAlpha_asciiLower]
      exact h1
    · rw [← List.map_cons]
      rw [List.all_eq_true] at h2 ⊢
      intro x hx
      obtain ⟨y, hy, rfl⟩ := List.mem_map.mp hx
      rw [isSchemeChar_asciiLower]
      exact h2 y hy

/-- A character outside `scheme_chars` occurring in a candidate refutes it. -/
theorem schemeOk_false_of_mem {a : Str} {x : Char} (hx : x ∈ a)
    (hbad : isSchemeChar x = false) : schemeOk a = false := by
  match a with
  | c :: rest =>
    unfold schemeOk
    rw [Bool.eq_false_iff]
    simp only [Ne, decide_eq_true_eq, not_and]
    intro _ hall
    rw [List.all_eq_true] at hall
    have := hall x hx
    rw [hbad] at this
    cases this

theorem schemeOk_false_of_head {c : Char} (rest : Str)
    (hc : asciiAlpha c = false) : schemeOk (c :: rest) = false := by
  unfold schemeOk
  rw [Bool.eq_false_iff]
  simp only [Ne, decide_eq_true_eq, not_and]
  intro h1
  rw [hc] at h1
  cases h1

/-! ## Generic list facts used by the reassembly proof -/

theorem takeWhile_append_stop {p : Char → Bool} {l₁ : Str} {x : Char}
    (l₂ : Str) (h1 : ∀ c ∈ l₁, p c = true) (hx : p x = false) :
    (l₁ ++ x :: l₂).takeWhile p = l₁ ∧ (l₁ ++ x :: l₂).dropWhile p = x :: l₂ := by
  induction l₁ with
  | nil =>
    rw [List.nil_append]
    constructor
    · rw [List.takeWhile_cons, hx]
      rfl
    · rw [List.dropWhile_cons, hx]
      rfl
  | cons c l₁ ih =>
    have hc : p c = true := h1 c (List.mem_cons_self _ _)
    obtain ⟨iht, ihd⟩ := ih (fun y hy => h1 y (List.mem_cons_of_mem _ hy))
    rw [List.cons_append]
    constructor
    · rw [List.takeWhile_cons, hc]
      simp only [if_true]
      rw [iht]
    · rw [List.dropWhile_cons, hc]
      simp only [if_true]
      rw [ihd]

theorem filter_eq_self_of_all {p : Char → Bool} {l : Str}
    (h : ∀ c ∈ l, p c = true) : l.filter p = l :=
  List.filter_eq_self.mpr h

theorem head_of_splitOnFirst {c : Char} {l a b : Str}
    (h : splitOnFirst c l = some (a, b)) (ha : a ≠ []) :
    a.head? = l.head? := by
  obtain ⟨hl, _⟩ := splitOnFirst_eq_some h
  subst hl
  match a, ha with
  | x :: a', _ => rfl

/-! ## Stage lemmas: scheme -/

theorem splitScheme_consume {scheme : Str} (rest : Str)
    (hok : schemeOk scheme = true) (hfix : scheme.map asciiLower = scheme)
    (hc : ':' ∉ scheme) :
    splitScheme (scheme ++ ':' :: rest) = (scheme, rest) := by
  unfold splitScheme
  rw [splitOnFirst_append _ hc]
  dsimp only
  rw [if_pos hok, hfix]

theorem splitScheme_of_reject {R : Str}
    (h : ∀ a b, splitOnFirst ':' R = some (a, b) → schemeOk a = false) :
    splitScheme R = ([], R) := by
  unfold splitScheme
  cases hs : splitOnFirst ':' R with
  | none => rfl
  | some p =>
    obtain ⟨a, b⟩ := p
    dsimp only
    rw [h a b hs]
    simp

/-- A head that is not an ASCII letter refutes every scheme candidate. -/
theorem schemeReject_of_head {c : Char} (rest : Str)
    (hc : asciiAlpha c = false) :
    ∀ a b, splitOnFirst ':' (c :: rest) = some (a, b) → schemeOk a = false := by
  intro a b h
  obtain ⟨hl, hna⟩ := splitOnFirst_eq_some h
  match a with
  | [] => rfl
  | x :: a' =>
    have hx : x = c := by
      rw [List.cons_append] at hl
      exact (List.cons_eq_cons.mp hl).1.symm
    subst hx
    exact schemeOk_false_of_head a' hc

/-- If the part before the first `:` of `pw` refutes every scheme, so does
the part before the first `:` of `pw ++ '?' :: t`. -/
theorem qmark_mem_of_append_colon {pw t a b : Str}
    (hl : pw ++ '?' :: t = a ++ ':' :: b) (hcol : ':' ∉ pw) : '?' ∈ a := by
  induction pw generalizing a with
  | nil =>
    rw [List.nil_append] at hl
    match a, hl with
    | [], hl =>
      exfalso
      have := (List.cons_eq_cons.mp hl).1
      cases this
    | x :: a', hl =>
      have := (List.cons_eq_cons.mp hl).1
      rw [← this]
      exact List.mem_cons_self _ _
  | cons c pw ih =>
    rw [List.cons_append] at hl
    match a, hl with
    | [], hl =>
      exfalso
      have := (List.cons_eq_cons.mp hl).1
      exact hcol (this ▸ List.mem_cons_self _ _)
    | x :: a', hl =>
      obtain ⟨hx, hl'⟩ := List.cons_eq_cons.mp hl
      have hcol' : ':' ∉ pw := fun hm => hcol (List.mem_cons_of_mem _ hm)
      exact List.mem_cons_of_mem _ (ih hl' hcol')

/-- If the part before the first `:` of `pw` refutes every scheme, so does
the part before the first `:` of `pw ++ '?' :: t`. -/
theorem schemeReject_append {pw : Str} (t : Str)
    (hrej : ∀ a b, splitOnFirst ':' pw = some (a, b) → schemeOk a = false) :
    ∀ a b, splitOnFirst ':' (pw ++ '?' :: t) = some (a, b) →
      schemeOk a = false := by
  intro a b h
  by_cases hcol : ':' ∈ pw
  · obtain ⟨a₀, b₀, hsp⟩ : ∃ a₀ b₀, splitOnFirst ':' pw = some (a₀, b₀) := by
      cases hs : splitOnFirst ':' pw with
      | none => exact absurd ((splitOnFirst_eq_none_iff ':' pw).mp hs) (by simpa using hcol)
      | some p =>
        obtain ⟨a₀, b₀⟩ := p
        exact ⟨a₀, b₀, rfl⟩
    obtain ⟨hpw, hna⟩ := splitOnFirst_eq_some hsp
    have hsp2 : splitOnFirst ':' (pw ++ '?' :: t) = some (a₀, b₀ ++ '?' :: t) := by
      rw [hpw, List.append_assoc, List.cons_append]
      exact splitOnFirst_append _ hna
    rw [hsp2] at h
    have h1 : a₀ = a := congrArg Prod.fst (Option.some_inj.mp h)
    rw [← h1]
    exact hrej a₀ b₀ hsp
  · obtain ⟨hl, _⟩ := splitOnFirst_eq_some h
    exact schemeOk_false_of_mem (qmark_mem_of_append_colon hl hcol) (by decide)

/-! ## Stage lemmas: netloc, fragment, query -/

theorem splitNetloc_consume {netloc : Str} {x : Char} (rest : Str)
    (hn : ∀ c ∈ netloc, isNetlocDelim c = false) (hx : isNetlocDelim x = true) :
    splitNetloc ('/' :: '/' :: (netloc ++ x :: rest)) = (netloc, x :: rest) := by
  unfold splitNetloc
  rw [if_pos (show ('/' :: '/' :: (netloc ++ x :: rest)).take 2 = ['/', '/'] from rfl)]
  have hdrop : ('/' :: '/' :: (netloc ++ x :: rest)).drop 2 = netloc ++ x :: rest := rfl
  rw [hdrop]
  obtain ⟨ht, hd⟩ := takeWhile_append_stop (p := fun c => ¬ isNetlocDelim c)
    (x := x) (x :: rest).tail
    (by
      intro c hc
      simp only [hn c hc]
      rfl)
    (by simp [hx])
  simp only [List.tail_cons] at ht hd
  rw [ht, hd]

theorem splitNetloc_empty_netloc {rest : Str} {x : Char}
    (hx : isNetlocDelim x = true) :
    splitNetloc ('/' :: '/' :: x :: rest) = ([], x :: rest) := by
  have := @splitNetloc_consume [] x rest (by simp) hx
  simpa using this

theorem splitNetloc_skip {R : Str} (h : R.take 2 ≠ ['/', '/']) :
    splitNetloc R = ([], R) := by
  unfold splitNetloc
  rw [if_neg h]

theorem splitFragment_consume {X : Str} (frag : Str) (hX : '#' ∉ X) :
    splitFragment (X ++ (if frag ≠ [] then '#' :: frag else [])) = (X, frag) := by
  by_cases hf : frag = []
  · rw [if_neg (by simp [hf]), List.append_nil]
    unfold splitFragment
    rw [(splitOnFirst_eq_none_iff '#' X).mpr hX]
    rw [hf]
  · rw [if_pos hf]
    unfold splitFragment
    rw [splitOnFirst_append _ hX]

theorem splitQuery_consume {Y : Str} (q : Str) (hY : '?' ∉ Y) :
    splitQuery (Y ++ '?' :: q) = (Y, q) := by
  unfold splitQuery
  rw [splitOnFirst_append _ hY]

/-! ## Small facts about the split stages -/

theorem splitScheme_nil {u u2 : Str} (h : splitScheme u = ([], u2)) :
    u2 = u ∧ ∀ a b, splitOnFirst ':' u = some (a, b) → schemeOk a = false := by
  unfold splitScheme at h
  cases hs : splitOnFirst ':' u with
  | none =>
    rw [hs] at h
    refine ⟨(Prod.mk.injEq .. ▸ h).2.symm ▸ rfl, ?_⟩
    · intro a b hab
      cases hab
  | some p =>
    obtain ⟨a, b⟩ := p
    rw [hs] at h
    dsimp only at h
    split_ifs at h with hok
    · exfalso
      have h1 : a.map asciiLower = [] := (Prod.mk.injEq .. ▸ h).1
      have h2 : a = [] := by simpa using h1
      subst h2
      cases hok
    · refine ⟨((Prod.mk.injEq .. ▸ h).2).symm, ?_⟩
      intro a' b' hab
      have ha : a = a' := congrArg Prod.fst (Option.some_inj.mp hab)
      rw [← ha]
      exact Bool.not_eq_true _ ▸ hok

theorem schemeOk_all {a : Str} (h : schemeOk a = true) :
    ∀ c ∈ a, isSchemeChar c = true := by
  match a with
  | c :: rest =>
    unfold schemeOk at h
    simp only [decide_eq_true_eq] at h
    rw [List.all_eq_true] at h
    exact fun x hx => h.2 x hx

theorem splitScheme_fst_inv (u : Str) :
    (splitScheme u).1 = [] ∨
      (schemeOk (splitScheme u).1 = true ∧
        (splitScheme u).1.map asciiLower = (splitScheme u).1 ∧
        ':' ∉ (splitScheme u).1) := by
  unfold splitScheme
  cases hs : splitOnFirst ':' u with
  | none => left; rfl
  | some p =>
    obtain ⟨a, b⟩ := p
    dsimp only
    split_ifs with hok
    · right
      refine ⟨schemeOk_map_asciiLower hok, asciiLower_map_idem a,
        colon_notin_asciiLower_scheme (schemeOk_all hok)⟩
    · left; rfl

theorem splitScheme_snd_sub (u : Str) : ∀ x ∈ (splitScheme u).2, x ∈ u := by
  unfold splitScheme
  cases hs : splitOnFirst ':' u with
  | none => intro x hx; exact hx
  | some p =>
    obtain ⟨a, b⟩ := p
    dsimp only
    split_ifs with hok
    · intro x hx
      obtain ⟨hl, _⟩ := splitOnFirst_eq_some hs
      rw [hl]
      exact List.mem_append.mpr (Or.inr (List.mem_cons_of_mem _ hx))
    · intro x hx; exact hx

theorem splitNetloc_fst_delim_free (u : Str) :
    ∀ c ∈ (splitNetloc u).1, isNetlocDelim c = false := by
  unfold splitNetloc
  split_ifs with h2
  · intro c hc
    have := List.mem_takeWhile_imp hc
    simpa using this
  · intro c hc
    cases hc

theorem splitNetloc_parts_sub (u : Str) :
    (∀ x ∈ (splitNetloc u).1, x ∈ u) ∧ ∀ x ∈ (splitNetloc u).2, x ∈ u := by
  unfold splitNetloc
  split_ifs with h2
  · constructor
    · intro x hx
      exact (List.drop_sublist 2 u).mem ((List.takeWhile_sublist _).mem hx)
    · intro x hx
      exact (List.drop_sublist 2 u).mem ((List.dropWhile_sublist _).mem hx)
  · exact ⟨fun x hx => absurd hx (List.not_mem_nil x), fun x hx => hx⟩

theorem splitFragment_fst_no_hash (u : Str) : '#' ∉ (splitFragment u).1 := by
  unfold splitFragment
  cases hs : splitOnFirst '#' u with
  | none =>
    exact (splitOnFirst_eq_none_iff '#' u).mp hs
  | some p =>
    obtain ⟨a, b⟩ := p
    exact (splitOnFirst_eq_some hs).2

theorem splitFragment_parts_sub (u : Str) :
    (∀ x ∈ (splitFragment u).1, x ∈ u) ∧ ∀ x ∈ (splitFragment u).2, x ∈ u := by
  unfold splitFragment
  cases hs : splitOnFirst '#' u with
  | none => exact ⟨fun x hx => hx, fun x hx => absurd hx (List.not_mem_nil x)⟩
  | some p =>
    obtain ⟨a, b⟩ := p
    obtain ⟨hl, _⟩ := splitOnFirst_eq_some hs
    subst hl
    constructor
    · intro x hx
      exact List.mem_append.mpr (Or.inl hx)
    · intro x hx
      exact List.mem_append.mpr (Or.inr (List.mem_cons_of_mem _ hx))

theorem splitQuery_fst_no_qmark (u : Str) : '?' ∉ (splitQuery u).1 := by
  unfold splitQuery
  cases hs : splitOnFirst '?' u with
  | none => exact (splitOnFirst_eq_none_iff '?' u).mp hs
  | some p =>
    obtain ⟨a, b⟩ := p
    exact (splitOnFirst_eq_some hs).2

theorem splitQuery_parts_sub (u : Str) :
    (∀ x ∈ (splitQuery u).1, x ∈ u) ∧ ∀ x ∈ (splitQuery u).2, x ∈ u := by
  unfold splitQuery
  cases hs : splitOnFirst '?' u with
  | none => exact ⟨fun x hx => hx, fun x hx => absurd hx (List.not_mem_nil x)⟩
  | some p =>
    obtain ⟨a, b⟩ := p
    obtain ⟨hl, _⟩ := splitOnFirst_eq_some hs
    subst hl
    constructor
    · intro x hx
      exact List.mem_append.mpr (Or.inl hx)
    · intro x hx
      exact List.mem_append.mpr (Or.inr (List.mem_cons_of_mem _ hx))

theorem splitFragment_fst_append (u : Str) :
    ∃ r, u = (splitFragment u).1 ++ r := by
  unfold splitFragment
  cases hs : splitOnFirst '#' u with
  | none => exact ⟨[], by simp⟩
  | some p =>
    obtain ⟨a, b⟩ := p
    obtain ⟨hl, _⟩ := splitOnFirst_eq_some hs
    exact ⟨'#' :: b, hl⟩

theorem splitQuery_fst_append (u : Str) :
    ∃ r, u = (splitQuery u).1 ++ r := by
  unfold splitQuery
  cases hs : splitOnFirst '?' u with
  | none => exact ⟨[], by simp⟩
  | some p =>
    obtain ⟨a, b⟩ := p
    obtain ⟨hl, _⟩ := splitOnFirst_eq_some hs
    exact ⟨'?' :: b, hl⟩

theorem splitFragment_fst_of_hash (t : Str) :
    (splitFragment ('#' :: t)).1 = [] := by
  unfold splitFragment
  rw [show splitOnFirst '#' ('#' :: t) = some ([], t) from by
    unfold splitOnFirst
    rw [if_pos rfl]]

theorem splitQuery_fst_of_qmark (t : Str) :
    (splitQuery ('?' :: t)).1 = [] := by
  unfold splitQuery
  rw [show splitOnFirst '?' ('?' :: t) = some ([], t) from by
    unfold splitOnFirst
    rw [if_pos rfl]]

theorem splitFragment_fst_head {c : Char} (t : Str) (hc : c ≠ '#') :
    (splitFragment (c :: t)).1.head? = some c := by
  unfold splitFragment
  cases hs : splitOnFirst '#' (c :: t) with
  | none => rfl
  | some p =>
    obtain ⟨a, b⟩ := p
    obtain ⟨hl, _⟩ := splitOnFirst_eq_some hs
    match a, hl with
    | [], hl =>
      exfalso
      exact hc (List.cons_eq_cons.mp hl).1
    | x :: a', hl =>
      have := (List.cons_eq_cons.mp hl).1
      rw [← this]
      rfl

theorem splitQuery_fst_head {c : Char} (t : Str) (hc : c ≠ '?') :
    (splitQuery (c :: t)).1.head? = some c := by
  unfold splitQuery
  cases hs : splitOnFirst '?' (c :: t) with
  | none => rfl
  | some p =>
    obtain ⟨a, b⟩ := p
    obtain ⟨hl, _⟩ := splitOnFirst_eq_some hs
    match a, hl with
    | [], hl =>
      exfalso
      exact hc (List.cons_eq_cons.mp hl).1
    | x :: a', hl =>
      have := (List.cons_eq_cons.mp hl).1
      rw [← this]
      rfl

/-! ## Invariants of `pyUrlsplit` output -/

/-- Every prefix before a first colon fails the scheme test. -/
def pathSchemeReject (pw : Str) : Prop :=
  ∀ a b, splitOnFirst ':' pw = some (a, b) → schemeOk a = false

/-- Empty, or a head that survives the WHATWG left-strip. -/
def headOk (pw : Str) : Prop :=
  pw = [] ∨ ∃ c, pw.head? = some c ∧ c0OrSpace c = false

theorem head?_append_left {a : Str} (r : Str) (h : a ≠ []) :
    (a ++ r).head? = a.head? := by
  match a with
  | x :: a' => rfl

theorem removeTabNl_lstrip_head (u : Str) : headOk (removeTabNl (lstripC0Space u)) := by
  cases hd : lstripC0Space u with
  | nil => left; rfl
  | cons h t =>
    have hh : c0OrSpace h = false := by
      have hx := List.head?_dropWhile_not c0OrSpace u
      unfold lstripC0Space at hd
      rw [hd] at hx
      simpa using hx
    have htab : isTabNl h = false := by
      rw [Bool.eq_false_iff, Ne, isTabNl_iff]
      rw [Bool.eq_false_iff, Ne, c0OrSpace_iff] at hh
      omega
    right
    refine ⟨h, ?_, hh⟩
    unfold removeTabNl
    rw [List.filter_cons, if_pos (by simp [htab])]
    rfl

theorem splitNetloc_pos {u : Str} (h : u.take 2 = ['/', '/']) :
    splitNetloc u = ((u.drop 2).takeWhile (fun c => ¬ isNetlocDelim c),
      (u.drop 2).dropWhile (fun c => ¬ isNetlocDelim c)) := by
  unfold splitNetloc
  rw [if_pos h]

/-- After a `//`-netloc split, the remaining path is empty or starts with
`/`. -/
theorem path_after_netloc_shape (u2 : Str) (ht : u2.take 2 = ['/', '/']) :
    (splitQuery (splitFragment ((splitNetloc u2).2)).1).1 = [] ∨
    (splitQuery (splitFragment ((splitNetloc u2).2)).1).1.head? = some '/' := by
  have hu3 : (splitNetloc u2).2 =
      (u2.drop 2).dropWhile (fun c => ¬ isNetlocDelim c) := by
    rw [splitNetloc_pos ht]
  cases hc : (splitNetloc u2).2 with
  | nil =>
    left
    rfl
  | cons d t =>
    have hdelim : isNetlocDelim d = true := by
      rw [hu3] at hc
      have hx := List.head?_dropWhile_not (fun c => ¬ isNetlocDelim c) (u2.drop 2)
      rw [hc] at hx
      simpa using hx
    rw [isNetlocDelim_iff] at hdelim
    rcases hdelim with hd | hd | hd
    · -- d = '/'
      have hd' : d = '/' := charEq_toNat (by rw [hd]; simp)
      subst hd'
      have hu4 := splitFragment_fst_head (c := '/') t (by decide)
      cases hc4 : (splitFragment ('/' :: t)).1 with
      | nil => left; rfl
      | cons c4 t4 =>
        rw [hc4] at hu4
        have hc44 : c4 = '/' := by simpa using hu4
        subst hc44
        right
        exact splitQuery_fst_head (c := '/') t4 (by decide)
    · -- d = '?'
      have hd' : d = '?' := charEq_toNat (by rw [hd]; simp)
      subst hd'
      cases hc4 : (splitFragment ('?' :: t)).1 with
      | nil => left; rfl
      | cons c4 t4 =>
        have hu4 := splitFragment_fst_head (c := '?') t (by decide)
        rw [hc4] at hu4
        have hc44 : c4 = '?' := by simpa using hu4
        subst hc44
        left
        exact splitQuery_fst_of_qmark t4
    · -- d = '#'
      have hd' : d = '#' := charEq_toNat (by rw [hd]; simp)
      subst hd'
      left
      rw [splitFragment_fst_of_hash t]
      rfl

/-- The invariants of `pyUrlsplit` output that make the reassembled URL
parse back to the same components. -/
theorem pyUrlsplit_inv (u : Str) :
    ((pyUrlsplit u).scheme = [] ∨
      (schemeOk (pyUrlsplit u).scheme = true ∧
        (pyUrlsplit u).scheme.map asciiLower = (pyUrlsplit u).scheme ∧
        ':' ∉ (pyUrlsplit u).scheme)) ∧
    (∀ c ∈ (pyUrlsplit u).netloc, isNetlocDelim c = false) ∧
    (∀ c ∈ (pyUrlsplit u).netloc, isTabNl c = false) ∧
    ('?' ∉ (pyUrlsplit u).path ∧ '#' ∉ (pyUrlsplit u).path) ∧
    (∀ c ∈ (pyUrlsplit u).path, isTabNl c = false) ∧
    (∀ c ∈ (pyUrlsplit u).fragment, isTabNl c = false) ∧
    ((pyUrlsplit u).netloc ≠ [] →
      (pyUrlsplit u).path = [] ∨ (pyUrlsplit u).path.head? = some '/') ∧
    ((pyUrlsplit u).scheme = [] → (pyUrlsplit u).netloc = [] →
      pathSchemeReject (pyUrlsplit u).path ∧ headOk (pyUrlsplit u).path) := by
  have hu1tab : ∀ x ∈ removeTabNl (lstripC0Space u), isTabNl x = false := by
    intro x hx
    have := List.of_mem_filter hx
    simpa using this
  have hscheme : (pyUrlsplit u).scheme =
      (splitScheme (removeTabNl (lstripC0Space u))).1 := rfl
  have hu2 : (pyUrlsplit u).netloc =
      (splitNetloc (splitScheme (removeTabNl (lstripC0Space u))).2).1 := rfl
  have hpath : (pyUrlsplit u).path =
      (splitQuery (splitFragment
        (splitNetloc (splitScheme (removeTabNl (lstripC0Space u))).2).2).1).1 := rfl
  have hfrag : (pyUrlsplit u).fragment =
      (splitFragment
        (splitNetloc (splitScheme (removeTabNl (lstripC0Space u))).2).2).2 := rfl
  -- membership transport into u1
  have hmem_u2 : ∀ x ∈ (splitScheme (removeTabNl (lstripC0Space u))).2,
      x ∈ removeTabNl (lstripC0Space u) := splitScheme_snd_sub _
  have hmem_netloc : ∀ x ∈ (pyUrlsplit u).netloc,
      x ∈ removeTabNl (lstripC0Space u) := by
    rw [hu2]
    intro x hx
    exact hmem_u2 x ((splitNetloc_parts_sub _).1 x hx)
  have hmem_u3 : ∀ x ∈ (splitNetloc (splitScheme
      (removeTabNl (lstripC0Space u))).2).2, x ∈ removeTabNl (lstripC0Space u) := by
    intro x hx
    exact hmem_u2 x ((splitNetloc_parts_sub _).2 x hx)
  have hmem_path : ∀ x ∈ (pyUrlsplit u).path,
      x ∈ removeTabNl (lstripC0Space u) := by
    rw [hpath]
    intro x hx
    exact hmem_u3 x ((splitFragment_parts_sub _).1 x ((splitQuery_parts_sub _).1 x hx))
  have hmem_frag : ∀ x ∈ (pyUrlsplit u).fragment,
      x ∈ removeTabNl (lstripC0Space u) := by
    rw [hfrag]
    intro x hx
    exact hmem_u3 x ((splitFragment_parts_sub _).2 x hx)
  refine ⟨?_, ?_, ?_, ?_, ?_, ?_, ?_, ?_⟩
  · rw [hscheme]
    exact splitScheme_fst_inv _
  · rw [hu2]
    exact splitNetloc_fst_delim_free _
  · intro c hc
    exact hu1tab c (hmem_netloc c hc)
  · constructor
    · rw [hpath]
      exact splitQuery_fst_no_qmark _
    · rw [hpath]
      intro hc
      exact splitFragment_fst_no_hash _
        ((splitQuery_parts_sub _).1 '#' hc)
  · intro c hc
    exact hu1tab c (hmem_path c hc)
  · intro c hc
    exact hu1tab c (hmem_frag c hc)
  · -- netloc nonempty forces the // branch, whose path is empty or /-headed
    intro hne
    rw [hpath]
    by_cases ht : (splitScheme (removeTabNl (lstripC0Space u))).2.take 2 = ['/', '/']
    · exact path_after_netloc_shape _ ht
    · exfalso
      apply hne
      rw [hu2, splitNetloc_skip ht]
  · intro hs0 hn0
    have hsfst : (splitScheme (removeTabNl (lstripC0Space u))).1 = [] := by
      rw [← hscheme]; exact hs0
    have hsplit : splitScheme (removeTabNl (lstripC0Space u)) =
        ([], (splitScheme (removeTabNl (lstripC0Space u))).2) := by
      rw [← hsfst]
    obtain ⟨hu2eq, hrej⟩ := splitScheme_nil hsplit
    by_cases ht : (splitScheme (removeTabNl (lstripC0Space u))).2.take 2 = ['/', '/']
    · have hshape := path_after_netloc_shape _ ht
      rw [← hpath] at hshape
      constructor
      · rcases hshape with hp | hp
        · intro a b hsp
          rw [hp] at hsp
          cases hsp
        · intro a b hsp
          obtain ⟨hl, _⟩ := splitOnFirst_eq_some hsp
          match hpw : (pyUrlsplit u).path, hp, hl with
          | c :: t, hp, hl =>
            have hc : c = '/' := by simpa using hp
            subst hc
            exact schemeReject_of_head t (by decide) a b (hpw ▸ hsp)
      · rcases hshape with hp | hp
        · left; exact hp
        · right
          exact ⟨'/', hp, by decide⟩
    · -- no netloc: the path is a prefix of the stripped URL
      have hu3eq : (splitNetloc (splitScheme (removeTabNl (lstripC0Space u))).2).2
          = (splitScheme (removeTabNl (lstripC0Space u))).2 := by
        rw [splitNetloc_skip ht]
      obtain ⟨r1, hr1⟩ := splitFragment_fst_append
        (splitNetloc (splitScheme (removeTabNl (lstripC0Space u))).2).2
      obtain ⟨r2, hr2⟩ := splitQuery_fst_append
        (splitFragment (splitNetloc (splitScheme (removeTabNl (lstripC0Space u))).2).2).1
      have hpre : removeTabNl (lstripC0Space u) = (pyUrlsplit u).path ++ (r2 ++ r1) := by
        rw [hpath, ← List.append_assoc, ← hr2]
        rw [← hr1, hu3eq, hu2eq]
      constructor
      · intro a b hsp
        obtain ⟨hl, hna⟩ := splitOnFirst_eq_some hsp
        have : splitOnFirst ':' (removeTabNl (lstripC0Space u)) =
            some (a, b ++ (r2 ++ r1)) := by
          rw [hpre, hl, List.append_assoc, List.cons_append]
          exact splitOnFirst_append _ hna
        exact hrej a _ this
      · rcases removeTabNl_lstrip_head u with hnil | ⟨c, hc, hc0⟩
        · left
          have := hpre
          rw [hnil] at this
          exact (List.append_eq_nil.mp this.symm).1
        · by_cases hp : (pyUrlsplit u).path = []
          · left; exact hp
          · right
            refine ⟨c, ?_, hc0⟩
            rw [← hc, hpre]
            exact (head?_append_left _ hp).symm ▸ rfl

/-! ## Reassembly: `urlunsplit` output re-splits to the same components -/

theorem isSchemeChar_not_tabnl {c : Char} (h : isSchemeChar c = true) :
    isTabNl c = false := by
  rw [isSchemeChar_iff] at h
  rw [Bool.eq_false_iff, Ne, isTabNl_iff]
  omega

theorem asciiAlpha_not_c0 {c : Char} (h : asciiAlpha c = true) :
    c0OrSpace c = false := by
  rw [asciiAlpha_iff] at h
  rw [Bool.eq_false_iff, Ne, c0OrSpace_iff]
  omega

theorem lstripC0Space_id {U : Str}
    (h : ∀ hd, U.head? = some hd → c0OrSpace hd = false) :
    lstripC0Space U = U := by
  match U with
  | [] => rfl
  | c :: t =>
    unfold lstripC0Space
    rw [List.dropWhile_cons, if_neg (by simp [h c rfl])]

theorem removeTabNl_id {U : Str} (h : ∀ c ∈ U, isTabNl c = false) :
    removeTabNl U = U := by
  unfold removeTabNl
  rw [List.filter_eq_self]
  intro a ha
  simp [h a ha]

theorem take2_head {pw : Str} (h : pw.take 2 = ['/', '/']) :
    pw.head? = some '/' := by
  match pw with
  | [] => simp at h
  | [c] => simp at h
  | c1 :: c2 :: r =>
    simp only [List.take_succ_cons, List.take_zero, List.cons.injEq, and_true] at h
    show some c1 = some '/'
    rw [h.1]

theorem take2_append_qmark {pw : Str} (t : Str)
    (h : (pw ++ '?' :: t).take 2 = ['/', '/']) : pw.take 2 = ['/', '/'] := by
  match pw with
  | [] => simp at h
  | [c] => simp at h
  | c1 :: c2 :: r => simpa using h

theorem unsplit_frag_shape (u3 f : Str) :
    (if f ≠ [] then u3 ++ '#' :: f else u3) =
      u3 ++ (if f ≠ [] then '#' :: f else []) := by
  by_cases hf : f = []
  · simp [hf]
  · simp [hf]

/-- `pyUrlsplit` written as explicit stage projections. -/
theorem pyUrlsplit_eq (u : Str) :
    pyUrlsplit u =
      ⟨(splitScheme (removeTabNl (lstripC0Space u))).1,
       (splitNetloc (splitScheme (removeTabNl (lstripC0Space u))).2).1,
       (splitQuery (splitFragment (splitNetloc (splitScheme
         (removeTabNl (lstripC0Space u))).2).2).1).1,
       (splitQuery (splitFragment (splitNetloc (splitScheme
         (removeTabNl (lstripC0Space u))).2).2).1).2,
       (splitFragment (splitNetloc (splitScheme
         (removeTabNl (lstripC0Space u))).2).2).2⟩ := rfl

/-- The shape of `pyUrlunsplit` output when the query is nonempty. -/
theorem pyUrlunsplit_shape (s n pw q f : Str) (hq : q ≠ []) :
    pyUrlunsplit s n pw q f =
      (if s ≠ [] then
        s ++ ':' :: (if n ≠ [] ∨ pw.take 2 = ['/', '/'] then
          '/' :: '/' :: (n ++
            (if pw ≠ [] ∧ pw.take 1 ≠ ['/'] then '/' :: pw else pw))
        else pw)
      else (if n ≠ [] ∨ pw.take 2 = ['/', '/'] then
          '/' :: '/' :: (n ++
            (if pw ≠ [] ∧ pw.take 1 ≠ ['/'] then '/' :: pw else pw))
        else pw)) ++ '?' :: (q ++ (if f ≠ [] then '#' :: f else [])) := by
  simp only [pyUrlunsplit]
  rw [unsplit_frag_shape, if_pos hq, List.append_assoc]
  rfl

/-- Gluing the five stages back into the record equation. -/
theorem pyUrlsplit_assemble {u s n pw q f R RT : Str}
    (h1 : removeTabNl (lstripC0Space u) = u)
    (h2 : splitScheme u = (s, R))
    (h3 : splitNetloc R = (n, RT))
    (h4 : splitFragment RT = (pw ++ '?' :: q, f))
    (h5 : splitQuery (pw ++ '?' :: q) = (pw, q)) :
    pyUrlsplit u = ⟨s, n, pw, q, f⟩ := by
  rw [pyUrlsplit_eq, h1, h2]
  dsimp only
  rw [h3]
  dsimp only
  rw [h4]
  dsimp only
  rw [h5]

/-- The central reassembly theorem: on components satisfying the invariants
that `pyUrlsplit` guarantees, plus a nonempty `#`-free tab-free replacement
query, `pyUrlsplit` inverts `pyUrlunsplit`. -/
theorem urlsplit_unsplit (s n pw q f : Str)
    (hs : s = [] ∨ (schemeOk s = true ∧ s.map asciiLower = s ∧ ':' ∉ s))
    (hnd : ∀ c ∈ n, isNetlocDelim c = false)
    (hnt : ∀ c ∈ n, isTabNl c = false)
    (hpq : '?' ∉ pw) (hph : '#' ∉ pw)
    (hpt : ∀ c ∈ pw, isTabNl c = false)
    (hqh : '#' ∉ q) (hqt : ∀ c ∈ q, isTabNl c = false) (hqne : q ≠ [])
    (hft : ∀ c ∈ f, isTabNl c = false)
    (h5 : n ≠ [] → pw = [] ∨ pw.head? = some '/')
    (h6 : s = [] → n = [] → pathSchemeReject pw ∧ headOk pw) :
    pyUrlsplit (pyUrlunsplit s n pw q f) = ⟨s, n, pw, q, f⟩ := by
  have hFt : ∀ c ∈ (if f ≠ [] then '#' :: f else []), isTabNl c = false := by
    split_ifs with hf
    · intro c hc
      rcases List.mem_cons.mp hc with h | h
      · rw [h]; decide
      · exact hft c h
    · intro c hc
      exact absurd hc (List.not_mem_nil c)
  have hTt : ∀ c ∈ '?' :: (q ++ (if f ≠ [] then '#' :: f else [])),
      isTabNl c = false := by
    intro c hc
    rcases List.mem_cons.mp hc with h | h
    · rw [h]; decide
    rcases List.mem_append.mp h with h | h
    · exact hqt c h
    · exact hFt c h
  have hPTt : ∀ c ∈ pw ++ '?' :: (q ++ (if f ≠ [] then '#' :: f else [])),
      isTabNl c = false := by
    intro c hc
    rcases List.mem_append.mp hc with h | h
    · exact hpt c h
    · exact hTt c h
  have hhash : '#' ∉ pw ++ '?' :: q := by
    intro hmem
    rcases List.mem_append.mp hmem with h | h
    · exact hph h
    rcases List.mem_cons.mp h with h | h
    · exact absurd h (by decide)
    · exact hqh h
  have hfragstage : splitFragment
      (pw ++ '?' :: (q ++ (if f ≠ [] then '#' :: f else []))) =
      (pw ++ '?' :: q, f) := by
    have h1 : pw ++ '?' :: (q ++ (if f ≠ [] then '#' :: f else [])) =
        (pw ++ '?' :: q) ++ (if f ≠ [] then '#' :: f else []) := by
      rw [List.append_assoc]
      rfl
    rw [h1]
    exact splitFragment_consume f hhash
  have hquerystage : splitQuery (pw ++ '?' :: q) = (pw, q) :=
    splitQuery_consume q hpq
  rw [pyUrlunsplit_shape s n pw q f hqne]
  by_cases hA : n ≠ [] ∨ pw.take 2 = ['/', '/']
  · -- the `//` branch of unsplit
    have hshape : pw = [] ∨ pw.head? = some '/' := by
      rcases hA with hn | ht
      · exact h5 hn
      · right; exact take2_head ht
    have hP1 : (if pw ≠ [] ∧ pw.take 1 ≠ ['/'] then '/' :: pw else pw) = pw := by
      rcases hshape with hpw | hpw
      · rw [if_neg (by simp [hpw])]
      · rw [if_neg]
        match pw, hpw with
        | c :: pt, hpw =>
          have hc : c = '/' := by simpa using hpw
          subst hc
          simp
    rw [if_pos hA, hP1]
    have hnetstage : splitNetloc ('/' :: '/' :: (n ++ (pw ++
        '?' :: (q ++ (if f ≠ [] then '#' :: f else []))))) =
        (n, pw ++ '?' :: (q ++ (if f ≠ [] then '#' :: f else []))) := by
      rcases hshape with hpw | hpw
      · subst hpw
        simp only [List.nil_append]
        exact splitNetloc_consume _ hnd (by decide)
      · match pw, hpw with
        | c :: pt, hpw =>
          have hc : c = '/' := by simpa using hpw
          subst hc
          exact splitNetloc_consume _ hnd (by decide)
    have hrtA : ∀ c ∈ ('/' :: '/' :: (n ++ (pw ++
        '?' :: (q ++ (if f ≠ [] then '#' :: f else []))))), isTabNl c = false := by
      intro c hc
      rcases List.mem_cons.mp hc with h | h
      · rw [h]; decide
      rcases List.mem_cons.mp h with h | h
      · rw [h]; decide
      rcases List.mem_append.mp h with h | h
      · exact hnt c h
      · exact hPTt c h
    rcases hs with hs0 | ⟨hok, hlow, hcol⟩
    · subst hs0
      rw [if_neg (show ¬(([] : Str) ≠ []) by simp)]
      have hcanon : ('/' :: '/' :: (n ++ pw)) ++
          '?' :: (q ++ (if f ≠ [] then '#' :: f else [])) =
          '/' :: '/' :: (n ++ (pw ++
            '?' :: (q ++ (if f ≠ [] then '#' :: f else [])))) := by
        simp [List.append_assoc]
      rw [hcanon]
      refine pyUrlsplit_assemble ?_ ?_ hnetstage hfragstage hquerystage
      · rw [lstripC0Space_id, removeTabNl_id hrtA]
        intro hd hhd
        rw [List.head?_cons] at hhd
        injection hhd with h2
        rw [← h2]
        decide
      · apply splitScheme_of_reject
        exact schemeReject_of_head _ (by decide)
    · have hsne : s ≠ [] := by
        intro h
        rw [h] at hok
        exact absurd hok (by decide)
      rw [if_pos hsne]
      have hcanon : (s ++ ':' :: ('/' :: '/' :: (n ++ pw))) ++
          '?' :: (q ++ (if f ≠ [] then '#' :: f else [])) =
          s ++ ':' :: ('/' :: '/' :: (n ++ (pw ++
            '?' :: (q ++ (if f ≠ [] then '#' :: f else []))))) := by
        simp [List.append_assoc]
      rw [hcanon]
      refine pyUrlsplit_assemble ?_ ?_ hnetstage hfragstage hquerystage
      · rw [lstripC0Space_id, removeTabNl_id]
        · intro c hc
          rcases List.mem_append.mp hc with h | h
          · match s, hok with
            | c0 :: st, hok =>
              unfold schemeOk at hok
              simp only [decide_eq_true_eq] at hok
              rw [List.all_eq_true] at hok
              exact isSchemeChar_not_tabnl (hok.2 c h)
          · rcases List.mem_cons.mp h with h | h
            · rw [h]; decide
            · exact hrtA c h
        · intro hd hhd
          match s, hok with
          | c0 :: st, hok =>
            rw [List.cons_append, List.head?_cons] at hhd
            injection hhd with h2
            rw [← h2]
            apply asciiAlpha_not_c0
            unfold schemeOk at hok
            simp only [decide_eq_true_eq] at hok
            exact hok.1
      · exact splitScheme_consume _ hok hlow hcol
  · -- no netloc and no leading `//`
    push_neg at hA
    obtain ⟨hn0, ht2⟩ := hA
    subst hn0
    rw [if_neg (show ¬(([] : Str) ≠ [] ∨ pw.take 2 = ['/', '/']) by simp [ht2])]
    have ht2' : (pw ++ '?' :: (q ++ (if f ≠ [] then '#' :: f else []))).take 2 ≠
        ['/', '/'] := fun h => ht2 (take2_append_qmark _ h)
    have hnetstage : splitNetloc (pw ++
        '?' :: (q ++ (if f ≠ [] then '#' :: f else []))) =
        ([], pw ++ '?' :: (q ++ (if f ≠ [] then '#' :: f else []))) :=
      splitNetloc_skip ht2'
    rcases hs with hs0 | ⟨hok, hlow, hcol⟩
    · subst hs0
      rw [if_neg (show ¬(([] : Str) ≠ []) by simp)]
      obtain ⟨hrej, hheadok⟩ := h6 rfl rfl
      refine pyUrlsplit_assemble ?_ ?_ hnetstage hfragstage hquerystage
      · rw [lstripC0Space_id, removeTabNl_id hPTt]
        intro hd hhd
        rcases hheadok with hpw0 | ⟨c, hc, hc0⟩
        · subst hpw0
          rw [List.nil_append, List.head?_cons] at hhd
          injection hhd with h2
          rw [← h2]
          decide
        · have hne : pw ≠ [] := by
            intro h
            rw [h] at hc
            exact absurd hc (by simp)
          rw [head?_append_left _ hne, hc] at hhd
          injection hhd with h2
          rw [← h2]
          exact hc0
      · exact splitScheme_of_reject (schemeReject_append _ hrej)
    · have hsne : s ≠ [] := by
        intro h
        rw [h] at hok
        exact absurd hok (by decide)
      rw [if_pos hsne]
      have hcanon : (s ++ ':' :: pw) ++
          '?' :: (q ++ (if f ≠ [] then '#' :: f else [])) =
          s ++ ':' :: (pw ++
            '?' :: (q ++ (if f ≠ [] then '#' :: f else []))) := by
        simp [List.append_assoc]
      rw [hcanon]
      refine pyUrlsplit_assemble ?_ ?_ hnetstage hfragstage hquerystage
      · rw [lstripC0Space_id, removeTabNl_id]
        · intro c hc
          rcases List.mem_append.mp hc with h | h
          · match s, hok with
            | c0 :: st, hok =>
              unfold schemeOk at hok
              simp only [decide_eq_true_eq] at hok
              rw [List.all_eq_true] at hok
              exact isSchemeChar_not_tabnl (hok.2 c h)
          · rcases List.mem_cons.mp h with h | h
            · rw [h]; decide
            · exact hPTt c h
        · intro hd hhd
          match s, hok with
          | c0 :: st, hok =>
            rw [List.cons_append, List.head?_cons] at hhd
            injection hhd with h2
            rw [← h2]
            apply asciiAlpha_not_c0
            unfold schemeOk at hok
            simp only [decide_eq_true_eq] at hok
            exact hok.1
      · exact splitScheme_consume _ hok hlow hcol

/-! ## The `params` split of `urlparse` and its re-split -/

/-- The params step of `pyUrlparse`, as a standalone function. -/
def splitParamsIf (P : Str) : Str × Str :=
  if ';' ∈ P then pySplitparams P else (P, [])

/-- The path re-join performed by `pyUrlunparse`. -/
def rejoinParams (pw p : Str) : Str :=
  if p ≠ [] then pw ++ ';' :: p else pw

theorem pyUrlparse_eq (url : Str) :
    pyUrlparse url =
      ⟨(pyUrlsplit url).scheme, (pyUrlsplit url).netloc,
       (splitParamsIf (pyUrlsplit url).path).1,
       (splitParamsIf (pyUrlsplit url).path).2,
       (pyUrlsplit url).query, (pyUrlsplit url).fragment⟩ := rfl

theorem pyUrlunparse_eq (s n pw p q f : Str) :
    pyUrlunparse s n pw p q f = pyUrlunsplit s n (rejoinParams pw p) q f := rfl

/-- Re-joining `path;params` and splitting again gives the same pair back,
and the re-joined path is the original path or the original minus a final
bare `;`. -/
theorem params_resplit (P : Str) :
    splitParamsIf (rejoinParams (splitParamsIf P).1 (splitParamsIf P).2) =
      splitParamsIf P ∧
    (rejoinParams (splitParamsIf P).1 (splitParamsIf P).2 = P ∨
      P = rejoinParams (splitParamsIf P).1 (splitParamsIf P).2 ++ [';']) := by
  by_cases hsemi : ';' ∈ P
  · have hsp : splitParamsIf P = pySplitparams P := by
      unfold splitParamsIf
      rw [if_pos hsemi]
    rw [hsp]
    unfold pySplitparams
    cases hlast : splitOnLast '/' P with
    | some ab =>
      obtain ⟨a, b⟩ := ab
      obtain ⟨hPab, hslashb⟩ := splitOnLast_eq_some hlast
      dsimp only
      cases hfirst : splitOnFirst ';' b with
      | some b12 =>
        obtain ⟨b1, b2⟩ := b12
        obtain ⟨hb12, hsemib1⟩ := splitOnFirst_eq_some hfirst
        dsimp only
        by_cases hb2 : b2 = []
        · subst hb2
          have hjoin : rejoinParams (a ++ '/' :: b1) [] = a ++ '/' :: b1 := by
            unfold rejoinParams
            rw [if_neg (by simp)]
          rw [hjoin]
          have hslashb1 : '/' ∉ b1 := by
            intro hm
            exact hslashb (hb12 ▸ List.mem_append_left _ hm)
          have hresplit : splitParamsIf (a ++ '/' :: b1) = (a ++ '/' :: b1, []) := by
            unfold splitParamsIf
            split_ifs with hsemi2
            · unfold pySplitparams
              rw [splitOnLast_append a hslashb1]
              dsimp only
              rw [(splitOnFirst_eq_none_iff ';' b1).mpr hsemib1]
            · rfl
          rw [hresplit]
          refine ⟨rfl, Or.inr ?_⟩
          rw [hPab, hb12]
          simp
        · have hjoin : rejoinParams (a ++ '/' :: b1) b2 =
              (a ++ '/' :: b1) ++ ';' :: b2 := by
            unfold rejoinParams
            rw [if_pos hb2]
          rw [hjoin]
          have hback : (a ++ '/' :: b1) ++ ';' :: b2 = P := by
            rw [hPab, hb12]
            simp
          rw [hback, hsp]
          unfold pySplitparams
          rw [hlast]
          dsimp only
          rw [hfirst]
          exact ⟨rfl, Or.inl rfl⟩
      | none =>
        dsimp only
        have hjoin : rejoinParams P [] = P := by
          unfold rejoinParams
          rw [if_neg (by simp)]
        rw [hjoin, hsp]
        unfold pySplitparams
        rw [hlast]
        dsimp only
        rw [hfirst]
        exact ⟨rfl, Or.inl rfl⟩
    | none =>
      dsimp only
      cases hfirst : splitOnFirst ';' P with
      | some p12 =>
        obtain ⟨p1, p2⟩ := p12
        obtain ⟨hp12, hsemip1⟩ := splitOnFirst_eq_some hfirst
        dsimp only
        by_cases hp2 : p2 = []
        · subst hp2
          have hjoin : rejoinParams p1 [] = p1 := by
            unfold rejoinParams
            rw [if_neg (by simp)]
          rw [hjoin]
          have hresplit : splitParamsIf p1 = (p1, []) := by
            unfold splitParamsIf
            rw [if_neg hsemip1]
          rw [hresplit]
          refine ⟨rfl, Or.inr ?_⟩
          rw [hp12]
        · have hjoin : rejoinParams p1 p2 = p1 ++ ';' :: p2 := by
            unfold rejoinParams
            rw [if_pos hp2]
          rw [hjoin, ← hp12, hsp]
          unfold pySplitparams
          rw [hlast]
          dsimp only
          rw [hfirst]
          exact ⟨rfl, Or.inl rfl⟩
      | none =>
        exact absurd hsemi ((splitOnFirst_eq_none_iff ';' P).mp hfirst)
  · have hsp : splitParamsIf P = (P, []) := by
      unfold splitParamsIf
      rw [if_neg hsemi]
    rw [hsp]
    have hjoin : rejoinParams P [] = P := by
      unfold rejoinParams
      rw [if_neg (by simp)]
    rw [hjoin, hsp]
    exact ⟨rfl, Or.inl rfl⟩

/-- Replacing the query of a parsed URL and unparsing yields a URL that
parses back to the same components with the new query — the `_replace` /
`urlunparse` round trip inside `ensure_english_language`. -/
theorem urlparse_roundtrip (u q' : Str) (hq'ne : q' ≠ []) (hq'h : '#' ∉ q')
    (hq't : ∀ c ∈ q', isTabNl c = false) :
    pyUrlparse (pyUrlunparse (pyUrlparse u).scheme (pyUrlparse u).netloc
      (pyUrlparse u).path (pyUrlparse u).params q' (pyUrlparse u).fragment) =
      ⟨(pyUrlparse u).scheme, (pyUrlparse u).netloc, (pyUrlparse u).path,
        (pyUrlparse u).params, q', (pyUrlparse u).fragment⟩ := by
  obtain ⟨i1, i2, i3, ⟨i4q, i4h⟩, i5, i6, i7, i8⟩ := pyUrlsplit_inv u
  obtain ⟨hres, hpre⟩ := params_resplit (pyUrlsplit u).path
  have hmemP2 : ∀ x ∈ rejoinParams (splitParamsIf (pyUrlsplit u).path).1
      (splitParamsIf (pyUrlsplit u).path).2, x ∈ (pyUrlsplit u).path := by
    rcases hpre with he | he
    · rw [he]
      intro x hx
      exact hx
    · intro x hx
      rw [he]
      exact List.mem_append_left _ hx
  have hP2q : '?' ∉ rejoinParams (splitParamsIf (pyUrlsplit u).path).1
      (splitParamsIf (pyUrlsplit u).path).2 := fun h => i4q (hmemP2 _ h)
  have hP2h : '#' ∉ rejoinParams (splitParamsIf (pyUrlsplit u).path).1
      (splitParamsIf (pyUrlsplit u).path).2 := fun h => i4h (hmemP2 _ h)
  have hP2t : ∀ c ∈ rejoinParams (splitParamsIf (pyUrlsplit u).path).1
      (splitParamsIf (pyUrlsplit u).path).2, isTabNl c = false :=
    fun c hc => i5 c (hmemP2 c hc)
  have h5' : (pyUrlsplit u).netloc ≠ [] →
      rejoinParams (splitParamsIf (pyUrlsplit u).path).1
        (splitParamsIf (pyUrlsplit u).path).2 = [] ∨
      (rejoinParams (splitParamsIf (pyUrlsplit u).path).1
        (splitParamsIf (pyUrlsplit u).path).2).head? = some '/' := by
    intro hn
    rcases i7 hn with hP | hP
    · rcases hpre with he | he
      · left
        rw [he, hP]
      · rw [hP] at he
        exact absurd he.symm (by simp)
    · rcases hpre with he | he
      · right
        rw [he, hP]
      · by_cases h0 : rejoinParams (splitParamsIf (pyUrlsplit u).path).1
            (splitParamsIf (pyUrlsplit u).path).2 = []
        · left
          exact h0
        · right
          rw [he, head?_append_left _ h0] at hP
          exact hP
  have h6' : (pyUrlsplit u).scheme = [] → (pyUrlsplit u).netloc = [] →
      pathSchemeReject (rejoinParams (splitParamsIf (pyUrlsplit u).path).1
        (splitParamsIf (pyUrlsplit u).path).2) ∧
      headOk (rejoinParams (splitParamsIf (pyUrlsplit u).path).1
        (splitParamsIf (pyUrlsplit u).path).2) := by
    intro hs hn
    obtain ⟨hrej, hok⟩ := i8 hs hn
    constructor
    · intro a b hsp
      rcases hpre with he | he
      · rw [he] at hsp
        exact hrej a b hsp
      · obtain ⟨hl, hna⟩ := splitOnFirst_eq_some hsp
        have hP : splitOnFirst ':' (pyUrlsplit u).path = some (a, b ++ [';']) := by
          rw [he, hl, List.append_assoc]
          exact splitOnFirst_append _ hna
        exact hrej a _ hP
    · rcases hok with hP | ⟨c, hc, hc0⟩
      · rcases hpre with he | he
        · left
          rw [he, hP]
        · rw [hP] at he
          exact absurd he.symm (by simp)
      · rcases hpre with he | he
        · right
          exact ⟨c, by rw [he, hc], hc0⟩
        · by_cases h0 : rejoinParams (splitParamsIf (pyUrlsplit u).path).1
              (splitParamsIf (pyUrlsplit u).path).2 = []
          · left
            exact h0
          · right
            rw [he, head?_append_left _ h0] at hc
            exact ⟨c, hc, hc0⟩
  have hmain := urlsplit_unsplit (pyUrlsplit u).scheme (pyUrlsplit u).netloc
    (rejoinParams (splitParamsIf (pyUrlsplit u).path).1
      (splitParamsIf (pyUrlsplit u).path).2)
    q' (pyUrlsplit u).fragment i1 i2 i3 hP2q hP2h hP2t hq'h hq't hq'ne i6 h5' h6'
  rw [pyUrlparse_eq u]
  dsimp only
  rw [pyUrlunparse_eq, pyUrlparse_eq, hmain]
  dsimp only
  rw [hres]

/-! ## `ensure_english_language`: structure of the normalized URL -/

/-- The query dict built inside `ensure_english_language`: the parsed query
with `hl` overwritten by the plain string `'en'`. -/
def englishDict (u : Str) : PyDict :=
  dictSet (toQ (parse_qs (pyUrlparse u).query)) hlKey (QVal.s enVal)

theorem ensure_english_language_eq (url : Str) :
    ensure_english_language url =
      pyUrlunparse (pyUrlparse url).scheme (pyUrlparse url).netloc
        (pyUrlparse url).path (pyUrlparse url).params
        (urlencode (englishDict url)) (pyUrlparse url).fragment := rfl

theorem englishDict_keys_nodup (u : Str) :
    ((englishDict u).map Prod.fst).Nodup := by
  apply dictSet_keys_nodup
  rw [toQ_keys]
  exact (parse_qs_accOK _).1

theorem englishDict_vals (u : Str) : ∀ e ∈ englishDict u, qvalOK e.2 := by
  apply dictSet_vals
  · exact toQ_vals _ (parse_qs_accOK _).2
  · show enVal ≠ []
    decide

theorem englishQuery_parse (u : Str) :
    parse_qs (urlencode (englishDict u)) = toLists (englishDict u) :=
  parse_qs_urlencode _ (englishDict_keys_nodup u) (englishDict_vals u)

theorem englishQuery_ne_nil (u : Str) : urlencode (englishDict u) ≠ [] :=
  urlencode_ne_nil_of_sMem (dictSet_mem _ hlKey (QVal.s enVal))

theorem englishQuery_no_hash (u : Str) : '#' ∉ urlencode (englishDict u) :=
  notin_urlencode (by decide) (by decide) (by decide) (by decide) (by decide) _

theorem englishQuery_tabfree (u : Str) :
    ∀ c ∈ urlencode (englishDict u), isTabNl c = false := by
  intro c hc
  rcases urlencode_chars _ c hc with h | h | h | h | h
  · rw [alwaysSafe_iff] at h
    rw [Bool.eq_false_iff, Ne, isTabNl_iff]
    omega
  · rw [h]; decide
  · rw [h]; decide
  · rw [h]; decide
  · rw [h]; decide

/-- Parsing the output of `ensure_english_language` recovers all the input
components, with the re-encoded query. -/
theorem ensure_english_parse (u : Str) :
    pyUrlparse (ensure_english_language u) =
      ⟨(pyUrlparse u).scheme, (pyUrlparse u).netloc, (pyUrlparse u).path,
       (pyUrlparse u).params, urlencode (englishDict u),
       (pyUrlparse u).fragment⟩ := by
  rw [ensure_english_language_eq u]
  exact urlparse_roundtrip u _ (englishQuery_ne_nil u) (englishQuery_no_hash u)
    (englishQuery_tabfree u)

theorem toQ_all_lists (ps : List (Str × List Str)) :
    ∀ e ∈ toQ ps, ∃ vs, e.2 = QVal.l vs := by
  intro e he
  obtain ⟨e', he', rfl⟩ := List.mem_map.mp he
  exact ⟨e'.2, rfl⟩

/-- C3: the Language-Param Normalizer is idempotent — applying
`ensure_english_language` twice yields the same string as applying it once —
and the query string of its output carries exactly one `hl` parameter,
namely the piece `hl=en`, regardless of the input's `hl` parameters. -/
theorem ensure_english_language_idem (u : Str) :
    ensure_english_language (ensure_english_language u) =
      ensure_english_language u ∧
    (rawParams (pyUrlparse (ensure_english_language u)).query).filter
      (fun p => rawKey p = quote_plus hlKey) = [encodePiece hlKey enVal] := by
  constructor
  · rw [ensure_english_language_eq (ensure_english_language u)]
    unfold englishDict
    rw [ensure_english_parse u]
    dsimp only
    rw [englishQuery_parse u]
    unfold englishDict
    rw [dictSet_requery _ hlKey enVal (toQ_all_lists _)]
    rw [ensure_english_language_eq u]
    rfl
  · rw [ensure_english_parse u]
    dsimp only
    rw [rawParams_urlencode (englishDict u)
      (urlencodePieces_ne_nil_of_sMem (dictSet_mem _ hlKey (QVal.s enVal)))]
    exact pieces_filter_key _ hlKey enVal (englishDict_keys_nodup u)
      (dictSet_mem _ hlKey (QVal.s enVal))

/-- C2 amended: `ensure_english_language` preserves the parsed scheme,
netloc, path, params and fragment of its input, and for every key other
than `hl` the parsed query dict of the output agrees with that of the
input; raw parameters with blank values are dropped by the parse/re-encode
cycle, so preservation holds at the parsed level, not for the raw query
text. -/
theorem normalizer_preserves_nonhl (u : Str) :
    (pyUrlparse (ensure_english_language u)).scheme = (pyUrlparse u).scheme ∧
    (pyUrlparse (ensure_english_language u)).netloc = (pyUrlparse u).netloc ∧
    (pyUrlparse (ensure_english_language u)).path = (pyUrlparse u).path ∧
    (pyUrlparse (ensure_english_language u)).params = (pyUrlparse u).params ∧
    (pyUrlparse (ensure_english_language u)).fragment =
      (pyUrlparse u).fragment ∧
    ∀ k, k ≠ hlKey →
      qsLookup k (parse_qs (pyUrlparse (ensure_english_language u)).query) =
        qsLookup k (parse_qs (pyUrlparse u).query) := by
  rw [ensure_english_parse u]
  refine ⟨rfl, rfl, rfl, rfl, rfl, ?_⟩
  intro k hk
  dsimp only
  rw [englishQuery_parse u]
  unfold englishDict
  rw [qsLookup_toLists_dictSet hk, toLists_toQ]

/-- Witness for the amended C2 theorem at a concrete URL and the concrete
non-`hl` key `foo`. -/
theorem normalizer_preserves_nonhl_witness :
    (['f', 'o', 'o'] : Str) ≠ hlKey ∧
    qsLookup ['f', 'o', 'o'] (parse_qs (pyUrlparse (ensure_english_language
      ['h', 't', 't', 'p', 's', ':', '/', '/', 'd', '.', 'c', 'o', 'm', '/',
       'p', '?', 'f', 'o', 'o', '=', 'b', 'a', 'r'])).query) =
    qsLookup ['f', 'o', 'o'] (parse_qs (pyUrlparse
      (['h', 't', 't', 'p', 's', ':', '/', '/', 'd', '.', 'c', 'o', 'm', '/',
        'p', '?', 'f', 'o', 'o', '=', 'b', 'a', 'r'] : Str)).query) :=
  ⟨by decide, (normalizer_preserves_nonhl _).2.2.2.2.2 ['f', 'o', 'o']
    (by decide)⟩

/-- A URL whose query carries a blank-valued parameter `foo=` ahead of
`hl=fr`. -/
def blankParamUrl : Str :=
  ['h', 't', 't', 'p', 's', ':', '/', '/', 'd', '.', 'c', 'o', 'm', '/', 'p',
   '?', 'f', 'o', 'o', '=', '&', 'h', 'l', '=', 'f', 'r']

/-- C2 counterexample: the input URL carries a raw query parameter with key
`foo` (and blank value), but the output of `ensure_english_language` carries
no parameter with key `foo` at all — blank-valued parameters are silently
dropped, so not every non-`hl` query parameter is preserved. -/
theorem normalizer_drops_blank_param :
    (∃ p ∈ rawParams (pyUrlparse blankParamUrl).query,
      rawKey p = ['f', 'o', 'o']) ∧
    ∀ p ∈ rawParams (pyUrlparse (ensure_english_language blankParamUrl)).query,
      rawKey p ≠ ['f', 'o', 'o'] := by
  constructor
  · decide
  · have hhl : unquote (plusToSpace ['h', 'l']) = ['h', 'l'] :=
      unquote_plusToSpace_quote_plus ['h', 'l']
    have hfr : unquote (plusToSpace ['f', 'r']) = ['f', 'r'] :=
      unquote_plusToSpace_quote_plus ['f', 'r']
    have hqs : parse_qs (pyUrlparse blankParamUrl).query =
        [(['h', 'l'], [['f', 'r']])] := by
      show groupPairs (parse_qsl (pyUrlparse blankParamUrl).query) = _
      rw [show parse_qsl (pyUrlparse blankParamUrl).query =
        [(unquote (plusToSpace ['h', 'l']),
          unquote (plusToSpace ['f', 'r']))] from rfl]
      rw [hhl, hfr]
      rfl
    have hout : ensure_english_language blankParamUrl =
        ['h', 't', 't', 'p', 's', ':', '/', '/', 'd', '.', 'c', 'o', 'm',
         '/', 'p', '?', 'h', 'l', '=', 'e', 'n'] := by
      rw [ensure_english_language_eq]
      unfold englishDict
      rw [hqs]
      rfl
    rw [hout]
    decide

end PdfConverter

